import Mathlib

/-!
# Verification of the résumé structuring pipeline

A shallow embedding of `src/parsers/resume_analyzer.py`: section
segmentation (`find_sections`), contact extraction (`extract_contact`),
the external-service extraction protocol (`call_llm`), the enrichment
fallbacks (`ensure_projects`, `ensure_certifications`) and the record
assembly of the module's main block (`mainOut`).

Python strings are modelled as `String`/`List Char`; Python dicts as
association lists with insert-order-preserving update (`pyUpd`); the
external text-understanding service and the named-entity recognizer are
oracles passed as function parameters.  The regular expressions of the
source are modelled by hand-written matchers whose deterministic
behaviour provably coincides with the leftmost greedy match semantics of
Python `re` on the concrete patterns involved (justified pattern by
pattern in comments below).
-/

set_option maxHeartbeats 1000000

/-! ## Basic string utilities (models of Python str methods) -/

/-- Whitespace characters recognised by Python `str.strip`/`str.split`
and by the regex class `\s` (ASCII range; the pipeline's inputs are
plain text). -/
def isSpacePy (c : Char) : Bool :=
  c = ' ' || c = '\t' || c = '\n' || c = '\r' || c = '\x0b' || c = '\x0c'

/-- `str.strip()` on a character list. -/
def stripCh (cs : List Char) : List Char :=
  ((cs.dropWhile isSpacePy).reverse.dropWhile isSpacePy).reverse

/-- `str.strip()`. -/
def stripStr (s : String) : String := ⟨stripCh s.data⟩

/-- `str.splitlines()` on a character list (the pipeline removes `\r`
before any splitting, so only `\n` is significant). No trailing empty
line is produced, matching Python. -/
def splitLinesCh : List Char → List (List Char)
  | [] => []
  | c :: cs =>
    if c = '\n' then [] :: splitLinesCh cs
    else
      match splitLinesCh cs with
      | [] => [[c]]
      | ln :: rest => (c :: ln) :: rest

/-- `str.splitlines()`. -/
def splitlines (s : String) : List String :=
  (splitLinesCh s.data).map (fun l => (⟨l⟩ : String))

/-- Worker for `str.split()` (split on whitespace runs, dropping empty
pieces); `acc` is the current word, reversed. -/
def splitWSGo (acc : List Char) : List Char → List (List Char)
  | [] => if acc.isEmpty then [] else [acc.reverse]
  | c :: cs =>
    if isSpacePy c then
      if acc.isEmpty then splitWSGo [] cs else acc.reverse :: splitWSGo [] cs
    else splitWSGo (c :: acc) cs

/-- `str.split()` with no separator argument. -/
def splitWS (s : String) : List String :=
  (splitWSGo [] s.data).map (fun l => (⟨l⟩ : String))

/-- `"\n".join(xs)`. -/
def joinNL (xs : List String) : String := String.intercalate "\n" xs

/-- `" ".join(xs)`. -/
def joinSp (xs : List String) : String := String.intercalate " " xs

/-- Case table: uppercase/lowercase pairs for ASCII letters plus the
accented letters appearing in the French heading synonyms. -/
def lowerPairs : List (Char × Char) :=
  [('A','a'),('B','b'),('C','c'),('D','d'),('E','e'),('F','f'),('G','g'),
   ('H','h'),('I','i'),('J','j'),('K','k'),('L','l'),('M','m'),('N','n'),
   ('O','o'),('P','p'),('Q','q'),('R','r'),('S','s'),('T','t'),('U','u'),
   ('V','v'),('W','w'),('X','x'),('Y','y'),('Z','z'),
   ('É','é'),('È','è'),('Ê','ê'),('À','à'),('Ç','ç')]

/-- Apply a character table, identity when the character is absent. -/
def mapByTable (tbl : List (Char × Char)) (c : Char) : Char :=
  ((tbl.find? (fun p => p.1 = c)).map (fun p => p.2)).getD c

/-- Python `str.lower` on one character (for the character set relevant
to the pipeline). -/
def toLowerPy (c : Char) : Char := mapByTable lowerPairs c

def upperPairs : List (Char × Char) := lowerPairs.map (fun p => (p.2, p.1))

/-- Python `str.upper` on one character. -/
def toUpperPy (c : Char) : Char := mapByTable upperPairs c

/-- A character is cased (participates in `str.title` word logic). -/
def isCasedPy (c : Char) : Bool := lowerPairs.any (fun p => p.1 = c || p.2 = c)

def toLowerStr (s : String) : String := ⟨s.data.map toLowerPy⟩

/-- Worker for Python `str.title()`: uppercase a cased character after a
non-cased one, lowercase a cased character after a cased one. -/
def titleGo (prevCased : Bool) : List Char → List Char
  | [] => []
  | c :: cs =>
    (if isCasedPy c then (if prevCased then toLowerPy c else toUpperPy c) else c)
      :: titleGo (isCasedPy c) cs

/-- Python `str.title()`. -/
def titlePy (s : String) : String := ⟨titleGo false s.data⟩

/-! ## The e-mail pattern `[A-Za-z0-9+._%-]+@[A-Za-z0-9._%-]+\.[A-Za-z]{2,6}`

`emailMatchAt` is the match attempt anchored at the head of the list;
`emailSearchCh` scans start positions left to right, which is exactly
Python `re.search` order.  At a fixed start the Python engine is greedy:
the local part cannot backtrack usefully (`@` is outside its class, so
the maximal run is forced), the domain run backtracks from the longest
split whose remainder is `\.` followed by 2–6 letters, and the final
`[A-Za-z]{2,6}` is greedy.  `emailMatchAt` implements that directly. -/

def isLocalCh (c : Char) : Bool :=
  c.isAlpha || c.isDigit || c = '+' || c = '.' || c = '_' || c = '%' || c = '-'

def isDomCh (c : Char) : Bool :=
  c.isAlpha || c.isDigit || c = '.' || c = '_' || c = '%' || c = '-'

/-- Length of the leading run of ASCII letters. -/
def letterRun (cs : List Char) : Nat := (cs.takeWhile Char.isAlpha).length

/-- Pick the greedy split point of the domain run `R`: the largest `j ≥ 1`
such that `R[j] = '.'` and at least two letters follow. -/
def domSplit (R : List Char) : Option Nat :=
  ((List.range R.length).reverse.filter (fun j => 1 ≤ j)).find?
    (fun j => R.getD j ' ' = '.' && 2 ≤ letterRun (R.drop (j+1)))

/-- Match of the e-mail pattern anchored at the head of `cs`, returning
the matched characters. -/
def emailMatchAt (cs : List Char) : Option (List Char) :=
  if (cs.takeWhile isLocalCh).isEmpty then none
  else
    match cs.drop (cs.takeWhile isLocalCh).length with
    | '@' :: rest =>
      match domSplit (rest.takeWhile isDomCh) with
      | some j =>
        some (cs.takeWhile isLocalCh ++ '@' ::
          ((rest.takeWhile isDomCh).take j ++ '.' ::
            ((rest.takeWhile isDomCh).drop (j+1)).take
              (min 6 (letterRun ((rest.takeWhile isDomCh).drop (j+1))))))
      | none => none
    | _ => none

/-- `EMAIL_RE.search`: leftmost match. -/
def emailSearchCh : List Char → Option (List Char)
  | [] => none
  | c :: cs =>
    match emailMatchAt (c :: cs) with
    | some m => some m
    | none => emailSearchCh cs

/-- Declarative shape of a full e-mail match: local part, `@`, nonempty
domain, dot, 2–6 letters.  Stated independently of the search algorithm
(existential over the dot position). -/
def emailShapeB (m : List Char) : Bool :=
  match m.drop (m.takeWhile isLocalCh).length with
  | '@' :: rest =>
    !(m.takeWhile isLocalCh).isEmpty &&
      (List.range rest.length).any (fun j =>
        1 ≤ j && rest.getD j ' ' = '.' && (rest.take j).all isDomCh &&
        (rest.drop (j+1)).all Char.isAlpha &&
        2 ≤ rest.length - (j+1) && rest.length - (j+1) ≤ 6)
  | _ => false

/-- Some prefix of `cs` is a full e-mail match. -/
def hasEmailPre (cs : List Char) : Bool :=
  (List.range (cs.length + 1)).any (fun k => emailShapeB (cs.take k))

/-- Some substring of `cs` is a full e-mail match. -/
def hasEmailSub (cs : List Char) : Bool :=
  (List.range (cs.length + 1)).any (fun i => hasEmailPre (cs.drop i))

/-! ## The phone pattern `\+?\d[\d ()\-]{7,}\d` -/

def isPhoneMid (c : Char) : Bool :=
  c.isDigit || c = ' ' || c = '(' || c = ')' || c = '-'

/-- Match of `\d[\d ()\-]{7,}\d` anchored at the head: first digit, then
the greedy body — the largest `k ≥ 7` with `R[k]` a digit, matching
`{7,}` on `R[0..k)` and the final `\d` on `R[k]`. -/
def phoneCoreAt (cs : List Char) : Option (List Char) :=
  match cs with
  | [] => none
  | c :: rest =>
    if c.isDigit then
      match ((List.range (rest.takeWhile isPhoneMid).length).reverse.filter
              (fun k => 7 ≤ k)).find?
              (fun k => ((rest.takeWhile isPhoneMid).getD k ' ').isDigit) with
      | some k => some (c :: (rest.takeWhile isPhoneMid).take (k+1))
      | none => none
    else none

/-- Match of the phone pattern anchored at the head of `cs`.  When the
head is `'+'` the optional `\+?` must consume it, since `\d` cannot. -/
def phoneMatchAt (cs : List Char) : Option (List Char) :=
  match cs with
  | [] => none
  | c :: rest =>
    if c = '+' then (phoneCoreAt rest).map (fun m => '+' :: m)
    else phoneCoreAt (c :: rest)

/-- `PHONE_RE.search`: leftmost match. -/
def phoneSearchCh : List Char → Option (List Char)
  | [] => none
  | c :: cs =>
    match phoneMatchAt (c :: cs) with
    | some m => some m
    | none => phoneSearchCh cs

/-- Declarative shape of a full phone match (after the optional `+`):
digit, at least 7 middle-class characters, final digit. -/
def phoneShapeCore (m : List Char) : Bool :=
  match m with
  | [] => false
  | c :: rest =>
    c.isDigit && 8 ≤ rest.length &&
      (rest.take (rest.length - 1)).all isPhoneMid &&
      ((rest.getLast?.map Char.isDigit).getD false)

def phoneShapeB (m : List Char) : Bool :=
  match m with
  | [] => false
  | c :: rest =>
    if c = '+' then phoneShapeCore rest
    else phoneShapeCore (c :: rest)

/-! ## Section headings (`SECTION_ORDER`, `HEADING_PATTERNS`)

A heading line is recognised by `re.match(rf"^{pat}\s*:?\s*$", ln, re.I)`.
Case-insensitivity is modelled by lowering the line; each pattern is an
alternation of literals, except the first alternative of the Skills
pattern which has two inner `\s*` gaps.  With the `$` anchor the match
is existential over the alternatives, and the inner `\s*` gaps can be
taken maximally because the following literal never starts with a
whitespace character, so the deterministic matchers below coincide with
the backtracking semantics. -/

def SECTION_ORDER : List String :=
  ["Contact Information", "Target Title", "Professional Summary",
   "Work Experience", "Education", "Skills & Interests", "Certifications",
   "Awards & Scholarships", "Projects", "Volunteering & Leadership",
   "Publications"]

/-- Consume a literal prefix. -/
def eatLit (w : List Char) (cs : List Char) : Option (List Char) :=
  if cs.take w.length = w then some (cs.drop w.length) else none

/-- The trailing `\s*:?\s*$` of every heading pattern. -/
def trailOk (cs : List Char) : Bool :=
  match cs.dropWhile isSpacePy with
  | [] => true
  | ':' :: r => (r.dropWhile isSpacePy).isEmpty
  | _ => false

/-- A single literal alternative followed by the trailing pattern. -/
def litTrail (w : String) (cs : List Char) : Bool :=
  match eatLit w.data cs with
  | some r => trailOk r
  | none => false

/-- The alternative `skills\s*(?:&|and)\s*interests` followed by the
trailing pattern. -/
def skillsAmp (cs : List Char) : Bool :=
  match eatLit "skills".data cs with
  | some r =>
    (match (eatLit "&".data (r.dropWhile isSpacePy)).orElse
             (fun _ => eatLit "and".data (r.dropWhile isSpacePy)) with
     | some r3 =>
       (match eatLit "interests".data (r3.dropWhile isSpacePy) with
        | some r4 => trailOk r4
        | none => false)
     | none => false)
  | none => false

/-- The lowered character list of a line, against which every heading
pattern is matched (modelling `re.I`). -/
def lowData (ln : String) : List Char := (toLowerStr ln).data

/-- The heading test `re.match` with the pattern of each of the eleven
section names, on the lowered line. -/
def matchesHeading (nm : String) (ln : String) : Bool :=
  if nm = "Contact Information" then litTrail "contact information" (lowData ln)
  else if nm = "Target Title" then litTrail "target title" (lowData ln)
  else if nm = "Professional Summary" then
    litTrail "professional summary" (lowData ln) || litTrail "summary" (lowData ln) || litTrail "profile" (lowData ln)
  else if nm = "Work Experience" then
    litTrail "work experience" (lowData ln) || litTrail "experience" (lowData ln) ||
    litTrail "professional experience" (lowData ln)
  else if nm = "Education" then litTrail "education" (lowData ln)
  else if nm = "Skills & Interests" then
    skillsAmp (lowData ln) || litTrail "skills" (lowData ln) || litTrail "interests" (lowData ln) ||
    litTrail "compétences" (lowData ln)
  else if nm = "Certifications" then
    litTrail "certifications" (lowData ln) || litTrail "certification" (lowData ln) ||
    litTrail "certificats" (lowData ln) || litTrail "certificat" (lowData ln)
  else if nm = "Awards & Scholarships" then
    litTrail "awards" (lowData ln) || litTrail "scholarships" (lowData ln) || litTrail "récompenses" (lowData ln)
  else if nm = "Projects" then
    litTrail "projects" (lowData ln) || litTrail "project" (lowData ln) || litTrail "projets" (lowData ln) ||
    litTrail "projet" (lowData ln)
  else if nm = "Volunteering & Leadership" then
    litTrail "volunteering" (lowData ln) || litTrail "leadership" (lowData ln) || litTrail "bénévolat" (lowData ln)
  else if nm = "Publications" then
    litTrail "publications" (lowData ln) || litTrail "publication" (lowData ln)
  else false

/-- Some heading pattern matches the (already stripped) line. -/
def anyHeading (ln : String) : Bool :=
  SECTION_ORDER.any (fun nm => matchesHeading nm ln)

/-! ## Association lists as Python dicts -/

/-- Key lookup returning an `Option`. -/
def lookupOpt {α : Type} (d : List (String × α)) (k : String) : Option α :=
  (d.find? (fun p => p.1 = k)).map (fun p => p.2)

/-- Key lookup with a default. -/
def lookupD {α : Type} (d : List (String × α)) (k : String) (dflt : α) : α :=
  (lookupOpt d k).getD dflt

def lookupStr (d : List (String × String)) (k : String) : String := lookupD d k ""

/-- Python dict assignment `d[k] = v`: update in place when the key is
present (insertion order preserved), append otherwise. -/
def pyUpd {α : Type} (d : List (String × α)) (k : String) (v : α) :
    List (String × α) :=
  if d.any (fun p => p.1 = k) then
    d.map (fun p => if p.1 = k then (k, v) else p)
  else d ++ [(k, v)]

/-! ## `find_sections` -/

/-- Python `enumerate` starting at `n`. -/
def enumFromL {α : Type} (n : Nat) : List α → List (Nat × α)
  | [] => []
  | a :: l => (n, a) :: enumFromL (n+1) l

/-- All stripped lines of the document. -/
def strippedLines (text : String) : List String :=
  (splitlines text).map stripStr

/-- The `(line index, section name)` heading markers, in the scan order
of the source: lines outermost, `HEADING_PATTERNS` (whose key order is
`SECTION_ORDER`) innermost. -/
def markersOf (lines : List String) : List (Nat × String) :=
  (enumFromL 0 lines).flatMap
    (fun p => (SECTION_ORDER.filter (fun nm => matchesHeading nm p.2)).map
      (fun nm => (p.1, nm)))

/-- Lexicographic `≤` on character lists (Python string comparison,
code point by code point, for the ASCII section names). -/
def charListLe : List Char → List Char → Bool
  | [], _ => true
  | _ :: _, [] => false
  | a :: as, b :: bs => decide (a < b) || (a = b && charListLe as bs)

/-- Python tuple comparison on `(line index, name)` markers, as used by
`markers.sort()`. -/
def markerLe (a b : Nat × String) : Bool :=
  decide (a.1 < b.1) || (a.1 = b.1 && charListLe a.2.data b.2.data)

def markerRel (a b : Nat × String) : Prop := markerLe a b = true

instance : DecidableRel markerRel := fun a b => by
  unfold markerRel; infer_instance

/-- `markers.sort()`. -/
def sortMarkers (ms : List (Nat × String)) : List (Nat × String) :=
  List.insertionSort markerRel ms

/-- `find_sections`: split the résumé text into `{section: raw_text}`,
initialising every enumerated key to the empty string and assigning, for
each consecutive pair of sorted markers, the stripped join of the lines
strictly between them (the last marker is paired with the line count). -/
def find_sections (text : String) : List (String × String) :=
  let lines := strippedLines text
  let ms := sortMarkers (markersOf lines)
  let prs := ms.zip ((ms.drop 1) ++ [(lines.length, "")])
  prs.foldl
    (fun secs pr =>
      pyUpd secs pr.1.2
        (stripStr (joinNL ((lines.drop (pr.1.1 + 1)).take (pr.2.1 - (pr.1.1 + 1))))))
    (SECTION_ORDER.map (fun k => (k, "")))

/-- The line index of the first heading line strictly after `j` (the
document length when there is none); used to state which span the later
of two duplicate headings owns. -/
def nextHeadingLine (lines : List String) (j : Nat) : Nat :=
  ((List.range lines.length).filter
    (fun k => decide (j < k) && anyHeading (lines.getD k ""))).headD lines.length

/-! ## Contact extraction -/

/-- Tokens that must not be considered part of the name. -/
def LOCATION_STOP : List String :=
  ["morocco", "maroc", "rabat", "casablanca",
   "tanger", "agadir", "meknes", "fes", "marrakesh"]

/-- Modelled from the spec: the external `nameparser.HumanName` library
is specified only at its interface — "split into first/last via
human-name parsing conventions (first token(s) = first name, last token
= surname)". -/
def humanFL (s : String) : String × String :=
  match splitWS s with
  | [] => ("", "")
  | [t] => (t, "")
  | t :: rest => (t, rest.getLastD "")

/-- The scanned window: the first 30 physical lines, stripped, with
empty lines removed (`[ln.strip() for ln in text.splitlines()[:30] if ln.strip()]`). -/
def contactLines (text : String) : List String :=
  (((splitlines text).take 30).map stripStr).filter (fun s => !s.isEmpty)

/-- First e-mail match over the window (`next(...)` with default `""`). -/
def firstEmailOf (w : List String) : String :=
  ((w.findSome? (fun ln => emailSearchCh ln.data)).map
    (fun l => (⟨l⟩ : String))).getD ""

/-- First phone match over the window. -/
def firstPhoneOf (w : List String) : String :=
  ((w.findSome? (fun ln => phoneSearchCh ln.data)).map
    (fun l => (⟨l⟩ : String))).getD ""

/-- The explicit-name-line test: 2–5 whitespace-separated tokens,
neither an e-mail nor a phone match anywhere in the line. -/
def isNameCand (ln : String) : Bool :=
  2 ≤ (splitWS ln).length && (splitWS ln).length ≤ 5 &&
  (emailSearchCh ln.data).isNone && (phoneSearchCh ln.data).isNone

/-- The explicit name line among the first 10 window lines (`next(...)`
with default `""`). -/
def nameLineOf (w : List String) : String :=
  ((w.take 10).find? isNameCand).getD ""

/-- Qualifying PERSON entities of the named-entity fallback: label
`PERSON`, at least two tokens, and no token in the location stop list. -/
def entCandidatesOf (ner : String → List (String × String)) (w : List String) :
    List String :=
  ((ner (joinSp (w.take 15))).filter (fun p =>
    p.2 = "PERSON" && 2 ≤ (splitWS p.1).length &&
    !((splitWS p.1).any (fun tok => LOCATION_STOP.contains (toLowerStr tok))))).map
    (fun p => p.1)

/-- Python `max(ents, key=len)`: first element of maximal length. -/
def argmaxLen (h : String) (t : List String) : String :=
  t.foldl (fun a x => if a.length < x.length then x else a) h

/-- `re.sub(r"[._\-]+", " ", s)`: replace each run of separators by one
space (`re.sub` replaces non-overlapping matches left to right; the
greedy `+` makes each match a maximal run). -/
def sepSub : List Char → List Char
  | [] => []
  | [c] => if c = '.' || c = '_' || c = '-' then [' '] else [c]
  | a :: b :: rest =>
    if a = '.' || a = '_' || a = '-' then
      (if b = '.' || b = '_' || b = '-' then sepSub (b :: rest)
       else ' ' :: b :: sepSub rest)
    else a :: sepSub (b :: rest)

/-- `re.sub(r"([a-z])([A-Z])", r"\1 \2", s)`: insert a space at each
camel-case boundary; after a replacement the scan resumes after the
consumed uppercase letter, matching `re.sub`'s non-overlapping rule. -/
def camelSub : List Char → List Char
  | [] => []
  | [c] => [c]
  | a :: b :: rest =>
    if a.isLower && b.isUpper then a :: ' ' :: b :: camelSub rest
    else a :: camelSub (b :: rest)

/-- Last-ditch name source: the local part of the e-mail with separator
runs replaced by spaces and camel-case boundaries split. -/
def emailLocalName (email : String) : String :=
  ⟨camelSub (sepSub (email.data.takeWhile (fun c => !(c = '@'))))⟩

/-- The raw name string fed to the human-name split, produced by the
three-strategy chain of the source. -/
def rawName (ner : String → List (String × String)) (w : List String) : String :=
  if nameLineOf w ≠ "" then nameLineOf w
  else
    match entCandidatesOf ner w with
    | [] => emailLocalName (firstEmailOf w)
    | e :: es => argmaxLen e es

structure Contact where
  firstName : String
  lastName : String
  email : String
  phone : String
  location : String

/-- `extract_contact`: e-mail/phone by first line match over the window,
name by the strategy chain (explicit name line, then PERSON entity, then
e-mail local part), both name fields title-cased, location from the
first GPE/LOC entity over the first 12 window lines. -/
def extract_contact (ner : String → List (String × String)) (text : String) :
    Contact :=
  let w := contactLines text
  let fl := humanFL (rawName ner w)
  { firstName := titlePy fl.1
    lastName := titlePy fl.2
    email := firstEmailOf w
    phone := firstPhoneOf w
    location := (((ner (joinSp (w.take 12))).find?
        (fun p => p.2 = "GPE" || p.2 = "LOC")).map (fun p => p.1)).getD "" }

/-! ## JSON values and the model of `json.loads` -/

inductive Json where
  | null : Json
  | bool : Bool → Json
  | num : String → Json
  | str : String → Json
  | arr : List Json → Json
  | obj : List (String × Json) → Json

/-- Python truthiness of a JSON-decoded value (`bool(x)`); numbers are
kept as their lexeme, a number is truthy when its mantissa has a nonzero
digit. -/
def jsonTruthy : Json → Bool
  | Json.null => false
  | Json.bool b => b
  | Json.num s =>
    (s.data.takeWhile (fun c => !(c = 'e' || c = 'E'))).any
      (fun c => c.isDigit && !(c = '0'))
  | Json.str s => !s.isEmpty
  | Json.arr xs => !xs.isEmpty
  | Json.obj kvs => !kvs.isEmpty

def jWsB (c : Char) : Bool := c = ' ' || c = '\t' || c = '\n' || c = '\r'

def skipJWs (cs : List Char) : List Char := cs.dropWhile jWsB

def hexVal (c : Char) : Option Nat :=
  if c.isDigit then some (c.toNat - 48)
  else if 'a' ≤ c && c ≤ 'f' then some (c.toNat - 87)
  else if 'A' ≤ c && c ≤ 'F' then some (c.toNat - 55)
  else none

def escMap (e : Char) : Option Char :=
  if e = '"' then some '"'
  else if e = '\\' then some '\\'
  else if e = '/' then some '/'
  else if e = 'b' then some (Char.ofNat 8)
  else if e = 'f' then some (Char.ofNat 12)
  else if e = 'n' then some '\n'
  else if e = 'r' then some '\r'
  else if e = 't' then some '\t'
  else none

/-- JSON string body after the opening quote: content and remainder. -/
def parseStrBody : List Char → Option (List Char × List Char)
  | [] => none
  | '"' :: r => some ([], r)
  | '\\' :: 'u' :: a :: b :: c :: d :: r =>
    (match hexVal a, hexVal b, hexVal c, hexVal d with
     | some x, some y, some z, some w =>
       (parseStrBody r).map (fun p => (Char.ofNat (((x*16+y)*16+z)*16+w) :: p.1, p.2))
     | _, _, _, _ => none)
  | '\\' :: e :: r =>
    (match escMap e with
     | some c => (parseStrBody r).map (fun p => (c :: p.1, p.2))
     | none => none)
  | c :: r =>
    if c.toNat < 32 then none
    else (parseStrBody r).map (fun p => (c :: p.1, p.2))

def digitsTake (cs : List Char) : List Char × List Char :=
  (cs.takeWhile Char.isDigit, cs.dropWhile Char.isDigit)

/-- JSON integer part: `0` or a nonzero digit followed by digits. -/
def parseIntPart : List Char → Option (List Char × List Char)
  | [] => none
  | '0' :: r => some (['0'], r)
  | c :: r =>
    if c.isDigit then some (c :: r.takeWhile Char.isDigit, r.dropWhile Char.isDigit)
    else none

/-- Optional JSON fraction part. -/
def parseFrac : List Char → Option (List Char × List Char)
  | '.' :: r =>
    (match digitsTake r with
     | (ds, rest) => if ds.isEmpty then none else some ('.' :: ds, rest))
  | cs => some ([], cs)

/-- Optional JSON exponent part. -/
def parseExp : List Char → Option (List Char × List Char)
  | [] => some ([], [])
  | e :: r =>
    if e = 'e' || e = 'E' then
      (match r with
       | s :: r2 =>
         if s = '+' || s = '-' then
           (match digitsTake r2 with
            | (ds, rest) => if ds.isEmpty then none else some (e :: s :: ds, rest))
         else
           (match digitsTake r with
            | (ds, rest) => if ds.isEmpty then none else some (e :: ds, rest))
       | [] => none)
    else some ([], e :: r)

/-- JSON number token, kept as its lexeme. -/
def parseNumTok (cs : List Char) : Option (Json × List Char) :=
  let sgn : List Char × List Char :=
    match cs with
    | '-' :: r => (['-'], r)
    | _ => ([], cs)
  match parseIntPart sgn.2 with
  | none => none
  | some (ip, r1) =>
    match parseFrac r1 with
    | none => none
    | some (fp, r2) =>
      match parseExp r2 with
      | none => none
      | some (ep, r3) => some (Json.num ⟨sgn.1 ++ ip ++ fp ++ ep⟩, r3)

mutual

/-- Fuel-indexed JSON value parser (the fuel passed at top level is
ample, see `jsonLoads`). -/
def parseVal : Nat → List Char → Option (Json × List Char)
  | 0, _ => none
  | Nat.succ f, cs =>
    match skipJWs cs with
    | 'n' :: 'u' :: 'l' :: 'l' :: r => some (Json.null, r)
    | 't' :: 'r' :: 'u' :: 'e' :: r => some (Json.bool true, r)
    | 'f' :: 'a' :: 'l' :: 's' :: 'e' :: r => some (Json.bool false, r)
    | 'N' :: 'a' :: 'N' :: r => some (Json.num "NaN", r)
    | 'I' :: 'n' :: 'f' :: 'i' :: 'n' :: 'i' :: 't' :: 'y' :: r =>
      some (Json.num "Infinity", r)
    | '-' :: 'I' :: 'n' :: 'f' :: 'i' :: 'n' :: 'i' :: 't' :: 'y' :: r =>
      some (Json.num "-Infinity", r)
    | '"' :: r => (parseStrBody r).map (fun p => (Json.str ⟨p.1⟩, p.2))
    | '[' :: r =>
      (match skipJWs r with
       | ']' :: r2 => some (Json.arr [], r2)
       | r2 => parseElems f r2 [])
    | '\x7b' :: r =>
      (match skipJWs r with
       | '\x7d' :: r2 => some (Json.obj [], r2)
       | r2 => parseMembers f r2 [])
    | r => parseNumTok r

/-- Comma-separated array elements up to `]`. -/
def parseElems : Nat → List Char → List Json → Option (Json × List Char)
  | 0, _, _ => none
  | Nat.succ f, cs, acc =>
    match parseVal f cs with
    | none => none
    | some (v, rest) =>
      match skipJWs rest with
      | ',' :: r2 => parseElems f r2 (acc ++ [v])
      | ']' :: r2 => some (Json.arr (acc ++ [v]), r2)
      | _ => none

/-- Comma-separated object members up to the closing brace. -/
def parseMembers : Nat → List Char → List (String × Json) →
    Option (Json × List Char)
  | 0, _, _ => none
  | Nat.succ f, cs, acc =>
    match skipJWs cs with
    | '"' :: r =>
      (match parseStrBody r with
       | none => none
       | some (k, r2) =>
         match skipJWs r2 with
         | ':' :: r3 =>
           (match parseVal f r3 with
            | none => none
            | some (v, r4) =>
              match skipJWs r4 with
              | ',' :: r5 => parseMembers f r5 (acc ++ [(⟨k⟩, v)])
              | '\x7d' :: r5 => some (Json.obj (acc ++ [(⟨k⟩, v)]), r5)
              | _ => none)
         | _ => none)
    | _ => none

end

/-- `json.loads`: parse one value and require only whitespace after it. -/
def jsonLoads (s : String) : Option Json :=
  match parseVal (2 * s.length + 4) s.data with
  | some (v, rest) => if (skipJWs rest).isEmpty then some v else none
  | none => none

/-! ## `call_llm` -/

/-- `re.search(r"\{.*\}", out, re.S)`: the span from the first opening
brace to the last closing brace, provided a closing brace follows the
first opening one.  (Leftmost start: a match attempt at the first `{`
fails only when no `}` follows it, in which case no later start can
succeed either; greedy `.*` with `re.S` reaches the last `}`.) -/
def braceSpan (cs : List Char) : Option (List Char) :=
  match cs.drop ((cs.takeWhile (fun c => !(c = '\x7b'))).length) with
  | [] => none
  | b :: r =>
    if r.any (fun c => c = '\x7d') then
      some (b :: ((r.reverse.dropWhile (fun c => !(c = '\x7d'))).reverse))
    else none

/-- The `PROMPTS` table with its generic-default lookup. -/
def promptFor (sec : String) : String :=
  if sec = "Professional Summary" then
    "Extract one ≤70‑word professional summary.\nReturn JSON: \x7b \"Professional Summary\": \"...\" \x7d"
  else if sec = "Skills & Interests" then
    "Group skills into\n[\"Programming Languages\",\"Frameworks & Libraries\",\"Tools & Platforms\",\"Soft Skills\",\"Languages\"].\nReturn JSON exactly in that form."
  else if sec = "Certifications" then
    "List each certification with fields\n\"Certificate\",\"Issuer\",\"Date\" (Date may be empty).\nReturn JSON: \x7b \"Certifications\": [ \x7b...\x7d, ... ] \x7d"
  else if sec = "Projects" then
    "For each project provide \"Title\",\"Description\",\"Technologies\".\nReturn JSON: \x7b \"Projects\": [...] \x7d"
  else
    "Extract structured data for \"" ++ sec ++ "\". Return JSON: \x7b \"" ++ sec ++ "\": [...] \x7d"

/-- The payload submitted to the external service. -/
def fullPromptFor (sec body : String) : String :=
  promptFor sec ++ "\n\n---\n" ++ body ++ "\n---"

/-- The designated empty result: `[]` for every section except
Professional Summary, `""` for Professional Summary. -/
def sentinelFor (sec : String) : Json :=
  if sec ≠ "Professional Summary" then Json.arr [] else Json.str ""

/-- `dict.get` over the member list of a decoded object.  `json.loads`
resolves duplicate keys last-wins, so lookup takes the last binding. -/
def lookupLast (kvs : List (String × Json)) (k : String) : Option Json :=
  (kvs.reverse.find? (fun p => p.1 = k)).map (fun p => p.2)

/-- `parsed.get(sec, parsed)`.  The extracted span always starts with a
brace, so a successful parse is always an object; the non-object arm is
unreachable. -/
def pyGetD (parsed : Json) (k : String) : Json :=
  match parsed with
  | Json.obj kvs => (lookupLast kvs k).getD (Json.obj kvs)
  | j => j

def warnNoJson (sec : String) : String :=
  "⚠️  " ++ sec ++ ": no JSON found in LLM output."

def warnBadJson (sec : String) : String :=
  "⚠️  " ++ sec ++ ": invalid JSON."

/-- Result of one `call_llm` invocation: the returned value together
with the console warnings printed on the way (the source prints them;
the model records them). -/
structure LLMRes where
  val : Json
  warns : List String

/-- `call_llm`: short-circuit on blank body, else submit the prompt to
the external service `svc`, locate the brace span of the reply, parse
it, and probe the parsed object by the section's own name. -/
def call_llm (svc : String → String) (sec body : String) : LLMRes :=
  if (stripStr body).isEmpty then ⟨sentinelFor sec, []⟩
  else
    match braceSpan (svc (fullPromptFor sec body)).data with
    | none => ⟨sentinelFor sec, [warnNoJson sec]⟩
    | some span =>
      match jsonLoads ⟨span⟩ with
      | none => ⟨sentinelFor sec, [warnBadJson sec]⟩
      | some parsed => ⟨pyGetD parsed sec, []⟩

/-! ## Enrichment fallbacks -/

/-- Python `\w` (ASCII relevant range). -/
def isWordCh (c : Char) : Bool := c.isAlpha || c.isDigit || c = '_'

def projKws : List (List Char) :=
  ["project".data, "built".data, "developed".data, "created".data,
   "designed".data]

/-- One of the project keywords starts here and ends at a word boundary. -/
def kwAtHead (cs : List Char) : Bool :=
  projKws.any (fun w =>
    cs.take w.length = w && !(((cs.drop w.length).head?.map isWordCh).getD false))

/-- Scan for `\b(project|built|developed|created|designed)\b`; `prev` is
the character before the current position (for the left boundary). -/
def kwScan (prev : Option Char) : List Char → Bool
  | [] => false
  | c :: rest =>
    (!((prev.map isWordCh).getD false) && kwAtHead (c :: rest)) ||
      kwScan (some c) rest

/-- `re.search(r"\b(project|built|developed|created|designed)\b", ln, re.I)`. -/
def hasProjKw (ln : String) : Bool := kwScan none (toLowerStr ln).data

/-- Substring containment (`needle in hay`). -/
def containsSub (w : List Char) : List Char → Bool
  | [] => w.isEmpty
  | c :: rest => ((c :: rest).take w.length = w) || containsSub w rest

/-- `"cert" in ln.lower()`. -/
def certLineB (ln : String) : Bool := containsSub "cert".data (toLowerStr ln).data

def lookupJ (d : List (String × Json)) (k : String) : Json := lookupD d k Json.null

/-- `ensure_projects`: when the Projects value is falsy, mine the Work
Experience lines for project keywords and re-extract from their join,
replacing the Projects value only when the re-extraction is truthy. -/
def ensure_projects (svc : String → String) (sections : List (String × String))
    (output : List (String × Json)) : List (String × Json) :=
  if jsonTruthy (lookupJ output "Projects") then output
  else if ((splitlines (lookupStr sections "Work Experience")).filter hasProjKw).isEmpty then
    output
  else if jsonTruthy (call_llm svc "Projects"
      (joinNL ((splitlines (lookupStr sections "Work Experience")).filter hasProjKw))).val then
    pyUpd output "Projects"
      (call_llm svc "Projects"
        (joinNL ((splitlines (lookupStr sections "Work Experience")).filter hasProjKw))).val
  else output

/-- The mined candidate lines of `ensure_certifications`: lines of
Skills & Interests then of Work Experience containing `"cert"`. -/
def certLines (sections : List (String × String)) : List String :=
  (splitlines (lookupStr sections "Skills & Interests")).filter certLineB
    ++ (splitlines (lookupStr sections "Work Experience")).filter certLineB

/-- `ensure_certifications`: symmetric rule over the lines of Skills &
Interests and Work Experience containing `"cert"`. -/
def ensure_certifications (svc : String → String)
    (sections : List (String × String)) (output : List (String × Json)) :
    List (String × Json) :=
  if jsonTruthy (lookupJ output "Certifications") then output
  else if (certLines sections).isEmpty then output
  else if jsonTruthy (call_llm svc "Certifications" (joinNL (certLines sections))).val then
    pyUpd output "Certifications"
      (call_llm svc "Certifications" (joinNL (certLines sections))).val
  else output

/-- The two enrichment passes in their main-block order. -/
def enrichPasses (svc : String → String) (sections : List (String × String))
    (output : List (String × Json)) : List (String × Json) :=
  ensure_certifications svc sections (ensure_projects svc sections output)

/-! ## Record assembly (the module's main block after text extraction) -/

def contactJson (c : Contact) : Json :=
  Json.obj [("First Name", Json.str c.firstName),
            ("Last Name", Json.str c.lastName),
            ("Email", Json.str c.email),
            ("Phone", Json.str c.phone),
            ("Location", Json.str c.location)]

/-- `out[sec] = out.get(sec, [])`. -/
def fillEmpty (d : List (String × Json)) (k : String) : List (String × Json) :=
  pyUpd d k ((lookupOpt d k).getD (Json.arr []))

/-- The structured record built by the main block from the extracted
text `raw`: contact (from the Contact Information section when nonempty,
else the whole document), first Target Title line verbatim, the six
extraction calls, the two enrichment passes, then the three placeholder
keys. -/
def mainOut (svc : String → String) (ner : String → List (String × String))
    (raw : String) : List (String × Json) :=
  let secs := find_sections raw
  let contact :=
    if lookupStr secs "Contact Information" ≠ "" then
      extract_contact ner (lookupStr secs "Contact Information")
    else extract_contact ner raw
  let d1 := pyUpd [] "Contact Information" (contactJson contact)
  let tt := ((splitlines (lookupStr secs "Target Title")).filter
      (fun ln => !(stripStr ln).isEmpty)).headD ""
  let d2 := pyUpd d1 "Target Title" (Json.str tt)
  let d3 := pyUpd d2 "Professional Summary"
      (call_llm svc "Professional Summary" (lookupStr secs "Professional Summary")).val
  let d4 := pyUpd d3 "Work Experience"
      (call_llm svc "Work Experience" (lookupStr secs "Work Experience")).val
  let d5 := pyUpd d4 "Education"
      (call_llm svc "Education" (lookupStr secs "Education")).val
  let d6 := pyUpd d5 "Skills & Interests"
      (call_llm svc "Skills & Interests" (lookupStr secs "Skills & Interests")).val
  let d7 := pyUpd d6 "Certifications"
      (call_llm svc "Certifications" (lookupStr secs "Certifications")).val
  let d8 := pyUpd d7 "Projects"
      (call_llm svc "Projects" (lookupStr secs "Projects")).val
  let d9 := ensure_certifications svc secs (ensure_projects svc secs d8)
  fillEmpty (fillEmpty (fillEmpty d9 "Awards & Scholarships")
    "Volunteering & Leadership") "Publications"


/-! ## Concrete fixtures used by witnesses and counterexamples -/

def outputPopulated : List (String × Json) :=
  [("Projects", Json.arr [Json.str "p"]), ("Certifications", Json.arr [Json.str "c"])]

def outputEmptyProj : List (String × Json) :=
  [("Projects", Json.arr []), ("Certifications", Json.arr [])]

def sectionsWE : List (String × String) :=
  [("Work Experience", "Managed a team\nDeveloped an internal tool")]

def svcProjList : String → String :=
  fun _ => "\x7b\"Projects\": [\"internal tool\"]\x7d"

def svcNoise : String → String := fun _ => "no structured reply here"

def svcProjEmptyList : String → String := fun _ => "\x7b\"Projects\": []\x7d"

def svcWrapped : String → String :=
  fun _ => "Sure, here you go: \x7b\"Projects\": [\"x\"]\x7d Hope this helps."

def svcTrailBrace : String → String :=
  fun _ => "\x7b\"Projects\": [\"x\"]\x7d ok\x7d"

def nerNone : String → List (String × String) := fun _ => []

def docLateEmail : String :=
  ⟨List.replicate 30 '\n' ++ "a@b.co".data⟩

/-! # Theorems -/

/-! ## Association-list lemmas -/

theorem lookupOpt_nil {α : Type} (k : String) : lookupOpt ([] : List (String × α)) k = none := rfl

theorem lookupOpt_cons {α : Type} (a : String × α) (l : List (String × α)) (k : String) :
    lookupOpt (a :: l) k = if a.1 = k then some a.2 else lookupOpt l k := by
  by_cases h : a.1 = k
  · simp [lookupOpt, List.find?_cons_of_pos, h]
  · rw [if_neg h]
    unfold lookupOpt
    rw [List.find?_cons_of_neg _ (by simpa using h)]

theorem pyUpd_cons_ne {α : Type} (p : String × α) (d : List (String × α))
    (k : String) (v : α) (hp : ¬ p.1 = k) :
    pyUpd (p :: d) k v = p :: pyUpd d k v := by
  unfold pyUpd
  simp only [List.any_cons, decide_eq_false hp, Bool.false_or]
  by_cases h : d.any (fun q => q.1 = k) = true
  · simp [h, hp]
  · simp [h, hp]

theorem pyUpd_cons_eq {α : Type} (p : String × α) (d : List (String × α))
    (k : String) (v : α) (hp : p.1 = k) :
    pyUpd (p :: d) k v = (k, v) :: d.map (fun q => if q.1 = k then (k, v) else q) := by
  unfold pyUpd
  simp [List.any_cons, hp]

theorem lookupOpt_map_upd {α : Type} (k k' : String) (v : α)
    (d : List (String × α)) (h : ¬ k' = k) :
    lookupOpt (d.map (fun q => if q.1 = k then (k, v) else q)) k' = lookupOpt d k' := by
  induction d with
  | nil => rfl
  | cons q d ih =>
    by_cases hq : q.1 = k
    · have hkk : ¬ k = k' := fun hh => h hh.symm
      simp [List.map_cons, hq, lookupOpt_cons, hkk, ih]
    · simp only [List.map_cons, hq, if_false, lookupOpt_cons]
      by_cases hq' : q.1 = k'
      · rw [if_pos hq', if_pos hq']
      · rw [if_neg hq', if_neg hq', ih]

theorem lookupOpt_pyUpd {α : Type} (d : List (String × α)) (k k' : String) (v : α) :
    lookupOpt (pyUpd d k v) k' = if k' = k then some v else lookupOpt d k' := by
  induction d with
  | nil =>
    by_cases h : k' = k
    · subst h; simp [pyUpd, lookupOpt]
    · rw [if_neg h]
      show lookupOpt (pyUpd [] k v) k' = lookupOpt [] k'
      unfold pyUpd
      rw [if_neg (by simp), List.nil_append, lookupOpt_cons,
          if_neg (show ¬ ((k, v) : String × α).1 = k' from fun hh => h hh.symm)]
  | cons p d ih =>
    by_cases hp : p.1 = k
    · rw [pyUpd_cons_eq p d k v hp]
      by_cases h : k' = k
      · subst h
        simp [lookupOpt_cons, hp]
      · rw [if_neg h, lookupOpt_cons, lookupOpt_cons,
            if_neg (show ¬ ((k, v) : String × α).1 = k' from fun hh => h hh.symm),
            if_neg (show ¬ p.1 = k' by rw [hp]; exact fun hh => h hh.symm),
            lookupOpt_map_upd k k' v d h]
    · rw [pyUpd_cons_ne p d k v hp, lookupOpt_cons, lookupOpt_cons]
      by_cases hpk' : p.1 = k'
      · rw [if_pos hpk', if_pos hpk',
            if_neg (show ¬ k' = k from fun hh => hp (hpk'.trans hh))]
      · rw [if_neg hpk', if_neg hpk', ih]

theorem lookupOpt_pyUpd_self {α : Type} (d : List (String × α)) (k : String) (v : α) :
    lookupOpt (pyUpd d k v) k = some v := by
  simp [lookupOpt_pyUpd]

theorem lookupOpt_pyUpd_ne {α : Type} (d : List (String × α)) (k k' : String)
    (v : α) (h : ¬ k' = k) :
    lookupOpt (pyUpd d k v) k' = lookupOpt d k' := by
  simp [lookupOpt_pyUpd, h]

/-- The Projects fallback only ever writes the `Projects` key. -/
theorem ensure_projects_lookup_ne (svc : String → String)
    (sections : List (String × String)) (output : List (String × Json))
    (k : String) (h : ¬ k = "Projects") :
    lookupOpt (ensure_projects svc sections output) k = lookupOpt output k := by
  unfold ensure_projects
  split
  · rfl
  · split
    · rfl
    · split
      · exact lookupOpt_pyUpd_ne _ _ _ _ h
      · rfl

/-- The Certifications fallback only ever writes the `Certifications` key. -/
theorem ensure_certifications_lookup_ne (svc : String → String)
    (sections : List (String × String)) (output : List (String × Json))
    (k : String) (h : ¬ k = "Certifications") :
    lookupOpt (ensure_certifications svc sections output) k = lookupOpt output k := by
  unfold ensure_certifications
  split
  · rfl
  · split
    · rfl
    · split
      · exact lookupOpt_pyUpd_ne _ _ _ _ h
      · rfl

theorem lookupOpt_fillEmpty_self (d : List (String × Json)) (k : String)
    (h : lookupOpt d k = none) :
    lookupOpt (fillEmpty d k) k = some (Json.arr []) := by
  unfold fillEmpty
  rw [lookupOpt_pyUpd_self, h]
  rfl

theorem lookupOpt_fillEmpty_ne (d : List (String × Json)) (k k' : String)
    (h : ¬ k' = k) :
    lookupOpt (fillEmpty d k) k' = lookupOpt d k' := by
  unfold fillEmpty
  exact lookupOpt_pyUpd_ne _ _ _ _ h

/-- Claim C10: for every input document and every behaviour of the
external service and of the entity recognizer, the assembled record maps
Awards & Scholarships, Volunteering & Leadership and Publications to the
empty list — no path in the pipeline assigns these keys any other value,
so the placeholder default is in fact unconditional. -/
theorem claim_C10 (svc : String → String) (ner : String → List (String × String))
    (raw : String) :
    lookupOpt (mainOut svc ner raw) "Awards & Scholarships" = some (Json.arr []) ∧
    lookupOpt (mainOut svc ner raw) "Volunteering & Leadership" = some (Json.arr []) ∧
    lookupOpt (mainOut svc ner raw) "Publications" = some (Json.arr []) := by
  unfold mainOut
  refine ⟨?_, ?_, ?_⟩
  · rw [lookupOpt_fillEmpty_ne _ _ _ (by decide), lookupOpt_fillEmpty_ne _ _ _ (by decide)]
    refine lookupOpt_fillEmpty_self _ _ ?_
    rw [ensure_certifications_lookup_ne _ _ _ _ (by decide),
        ensure_projects_lookup_ne _ _ _ _ (by decide)]
    simp [lookupOpt_pyUpd, lookupOpt_nil]
  · rw [lookupOpt_fillEmpty_ne _ _ _ (by decide)]
    refine lookupOpt_fillEmpty_self _ _ ?_
    rw [lookupOpt_fillEmpty_ne _ _ _ (by decide),
        ensure_certifications_lookup_ne _ _ _ _ (by decide),
        ensure_projects_lookup_ne _ _ _ _ (by decide)]
    simp [lookupOpt_pyUpd, lookupOpt_nil]
  · refine lookupOpt_fillEmpty_self _ _ ?_
    rw [lookupOpt_fillEmpty_ne _ _ _ (by decide), lookupOpt_fillEmpty_ne _ _ _ (by decide),
        ensure_certifications_lookup_ne _ _ _ _ (by decide),
        ensure_projects_lookup_ne _ _ _ _ (by decide)]
    simp [lookupOpt_pyUpd, lookupOpt_nil]

/-! ## The enrichment passes (claims C6, C7) -/

theorem ensure_projects_of_truthy (svc : String → String)
    (sections : List (String × String)) (output : List (String × Json))
    (h : jsonTruthy (lookupJ output "Projects") = true) :
    ensure_projects svc sections output = output := by
  unfold ensure_projects
  rw [if_pos h]

theorem ensure_certifications_of_truthy (svc : String → String)
    (sections : List (String × String)) (output : List (String × Json))
    (h : jsonTruthy (lookupJ output "Certifications") = true) :
    ensure_certifications svc sections output = output := by
  unfold ensure_certifications
  rw [if_pos h]

/-- Claim C6: when the Projects (respectively Certifications) value is
already non-empty (truthy), the corresponding fallback leaves the record
unchanged, and running the enrichment pass pair a second time on an
already-populated record is a no-op. -/
theorem claim_C6 (svc : String → String) (sections : List (String × String))
    (output : List (String × Json)) :
    (jsonTruthy (lookupJ output "Projects") = true →
      ensure_projects svc sections output = output) ∧
    (jsonTruthy (lookupJ output "Certifications") = true →
      ensure_certifications svc sections output = output) ∧
    (jsonTruthy (lookupJ output "Projects") = true →
      jsonTruthy (lookupJ output "Certifications") = true →
      enrichPasses svc sections (enrichPasses svc sections output) =
        enrichPasses svc sections output) := by
  refine ⟨ensure_projects_of_truthy svc sections output,
          ensure_certifications_of_truthy svc sections output, ?_⟩
  intro hp hc
  unfold enrichPasses
  rw [ensure_projects_of_truthy svc sections output hp,
      ensure_certifications_of_truthy svc sections output hc,
      ensure_projects_of_truthy svc sections output hp,
      ensure_certifications_of_truthy svc sections output hc]


/-- Witness for C6 at a concrete populated record and an arbitrary
concrete service. -/
theorem claim_C6_witness :
    ensure_projects (fun _ => "") [] outputPopulated = outputPopulated ∧
    ensure_certifications (fun _ => "") [] outputPopulated = outputPopulated ∧
    enrichPasses (fun _ => "") [] (enrichPasses (fun _ => "") [] outputPopulated) =
      enrichPasses (fun _ => "") [] outputPopulated :=
  ⟨(claim_C6 (fun _ => "") [] outputPopulated).1 (by decide),
   (claim_C6 (fun _ => "") [] outputPopulated).2.1 (by decide),
   (claim_C6 (fun _ => "") [] outputPopulated).2.2 (by decide) (by decide)⟩

/-- Claim C7: with an empty (falsy) Projects value, `ensure_projects`
filters the Work Experience lines by the project-keyword search; when no
line matches it changes nothing and consults no external service (the
result is independent of the service oracle); when some line matches it
re-extracts from exactly the joined matching lines under the `Projects`
contract and replaces the Projects value if and only if the
re-extraction is non-empty (truthy). -/
theorem claim_C7 (svc : String → String) (sections : List (String × String))
    (output : List (String × Json))
    (hempty : jsonTruthy (lookupJ output "Projects") = false) :
    (((splitlines (lookupStr sections "Work Experience")).filter hasProjKw) = [] →
      ensure_projects svc sections output = output ∧
      ∀ svc', ensure_projects svc' sections output = ensure_projects svc sections output) ∧
    (((splitlines (lookupStr sections "Work Experience")).filter hasProjKw) ≠ [] →
      ensure_projects svc sections output =
        (if jsonTruthy (call_llm svc "Projects"
              (joinNL ((splitlines (lookupStr sections "Work Experience")).filter hasProjKw))).val then
          pyUpd output "Projects"
            (call_llm svc "Projects"
              (joinNL ((splitlines (lookupStr sections "Work Experience")).filter hasProjKw))).val
        else output)) := by
  constructor
  · intro hc
    have hne : ¬ jsonTruthy (lookupJ output "Projects") = true := by
      rw [hempty]; exact Bool.false_ne_true
    constructor
    · unfold ensure_projects
      rw [if_neg hne, if_pos (by rw [hc]; rfl)]
    · intro svc'
      unfold ensure_projects
      rw [if_neg hne, if_neg hne, if_pos (by rw [hc]; rfl), if_pos (by rw [hc]; rfl)]
  · intro hc
    have hne : ¬ jsonTruthy (lookupJ output "Projects") = true := by
      rw [hempty]; exact Bool.false_ne_true
    unfold ensure_projects
    rw [if_neg hne, if_neg (by simpa [List.isEmpty_iff] using hc)]




/-- Witness for C7: the Work Experience body contains the line
"Developed an internal tool"; the pass builds the synthetic body from
exactly that line and replaces Projects with the truthy re-extraction. -/
theorem claim_C7_witness :
    ensure_projects svcProjList sectionsWE outputEmptyProj =
      (if jsonTruthy (call_llm svcProjList "Projects"
            (joinNL ((splitlines (lookupStr sectionsWE "Work Experience")).filter hasProjKw))).val then
        pyUpd outputEmptyProj "Projects"
          (call_llm svcProjList "Projects"
            (joinNL ((splitlines (lookupStr sectionsWE "Work Experience")).filter hasProjKw))).val
      else outputEmptyProj) :=
  (claim_C7 svcProjList sectionsWE outputEmptyProj (by decide)).2 (by decide)

/-! ## `call_llm` error handling (claims C2, C3) -/

/-- Amended claim C2 (the three listed cases do yield the empty
sentinel; exactness fails, see the counterexample): a blank body
short-circuits to the sentinel with no warning and without consulting
the service; a reply with no brace-delimited span, or whose span fails
to parse, yields the sentinel with a non-fatal warning naming the
section.  `call_llm` is a total function, so no case raises. -/
theorem claim_C2 (svc : String → String) (sec body : String) :
    ((stripStr body).isEmpty = true →
      call_llm svc sec body = ⟨sentinelFor sec, []⟩ ∧
      ∀ svc', call_llm svc' sec body = call_llm svc sec body) ∧
    ((stripStr body).isEmpty = false →
      braceSpan (svc (fullPromptFor sec body)).data = none →
      (call_llm svc sec body).val = sentinelFor sec ∧
      (call_llm svc sec body).warns = [warnNoJson sec] ∧
      ∃ pre post, warnNoJson sec = pre ++ sec ++ post) ∧
    (∀ span, (stripStr body).isEmpty = false →
      braceSpan (svc (fullPromptFor sec body)).data = some span →
      jsonLoads ⟨span⟩ = none →
      (call_llm svc sec body).val = sentinelFor sec ∧
      (call_llm svc sec body).warns = [warnBadJson sec] ∧
      ∃ pre post, warnBadJson sec = pre ++ sec ++ post) := by
  refine ⟨fun hb => ⟨?_, fun svc' => ?_⟩, fun hb hs => ?_, fun span hb hs hj => ?_⟩
  · unfold call_llm; rw [if_pos hb]
  · unfold call_llm; rw [if_pos hb, if_pos hb]
  · unfold call_llm
    rw [if_neg (by rw [hb]; exact Bool.false_ne_true), hs]
    exact ⟨rfl, rfl, "⚠️  ", ": no JSON found in LLM output.", rfl⟩
  · unfold call_llm
    rw [if_neg (by rw [hb]; exact Bool.false_ne_true), hs]
    dsimp only
    rw [hj]
    exact ⟨rfl, rfl, "⚠️  ", ": invalid JSON.", rfl⟩


/-- Witness for C2: a blank body short-circuits, and a brace-free reply
yields the sentinel plus a warning naming the section. -/
theorem claim_C2_witness :
    call_llm svcNoise "Projects" "  " = ⟨sentinelFor "Projects", []⟩ ∧
    (call_llm svcNoise "Projects" "x").val = sentinelFor "Projects" ∧
    (call_llm svcNoise "Projects" "x").warns = [warnNoJson "Projects"] :=
  ⟨((claim_C2 svcNoise "Projects" "  ").1 (by decide)).1,
   ((claim_C2 svcNoise "Projects" "x").2.1 (by decide) (by decide)).1,
   ((claim_C2 svcNoise "Projects" "x").2.1 (by decide) (by decide)).2.1⟩


/-- Counterexample to C2 as stated: with a non-blank body and a reply
whose brace span parses successfully, `call_llm` still returns a value
equal to the section's empty sentinel — so the sentinel is not returned
*exactly* in the three listed cases. -/
theorem claim_C2_counterexample :
    (call_llm svcProjEmptyList "Projects" "x").val = sentinelFor "Projects" ∧
    (stripStr "x").isEmpty = false ∧
    braceSpan (svcProjEmptyList (fullPromptFor "Projects" "x")).data =
      some ("\x7b\"Projects\": []\x7d").data ∧
    (jsonLoads "\x7b\"Projects\": []\x7d").isSome = true := by
  refine ⟨?_, by decide, by decide, by decide⟩
  rfl

/-! For C3, the span the source extracts runs from the *first* `{` to
the *last* `}` of the reply.  Bracketing text is harmless exactly when
the leading text contains no `{` and the trailing text no `}`; the
counterexample shows a trailing `}` collapsing an otherwise well-formed
reply to the sentinel. -/

theorem takeWhile_append_head {p : Char → Bool} (pre : List Char) (b : Char)
    (r : List Char) (hpre : ∀ c ∈ pre, p c = true) (hb : p b = false) :
    (pre ++ b :: r).takeWhile p = pre := by
  induction pre with
  | nil => simp [List.takeWhile, hb]
  | cons a t ih =>
    have ha : p a = true := hpre a (by simp)
    simp only [List.cons_append, List.takeWhile_cons, ha, if_true]
    rw [ih (fun c hc => hpre c (by simp [hc]))]

theorem dropWhile_append_all {p : Char → Bool} (pre : List Char)
    (r : List Char) (hpre : ∀ c ∈ pre, p c = true) :
    (pre ++ r).dropWhile p = r.dropWhile p := by
  induction pre with
  | nil => simp
  | cons a t ih =>
    have ha : p a = true := hpre a (by simp)
    simp only [List.cons_append, List.dropWhile_cons, ha, if_true]
    exact ih (fun c hc => hpre c (by simp [hc]))

/-- The brace-span extraction on a reply of the shape
`pre ++ '{' :: mid ++ post` with no `{` in `pre`, no `}` in `post`, and
`mid` ending in `}`. -/
theorem braceSpan_of_shape (pre mid post : List Char)
    (hpre : ∀ c ∈ pre, ¬ c = '\x7b')
    (hpost : ∀ c ∈ post, ¬ c = '\x7d')
    (hmid : mid.getLast? = some '\x7d') :
    braceSpan (pre ++ '\x7b' :: (mid ++ post)) = some ('\x7b' :: mid) := by
  obtain ⟨mid0, hmid0⟩ : ∃ mid0, mid = mid0 ++ ['\x7d'] := by
    rcases List.eq_nil_or_concat mid with h | ⟨l, a, h⟩
    · rw [h] at hmid; exact absurd hmid (by simp)
    · refine ⟨l, ?_⟩
      rw [h] at hmid ⊢
      rw [List.concat_eq_append] at hmid ⊢
      rw [List.getLast?_concat] at hmid
      simp only [Option.some.injEq] at hmid
      rw [hmid]
  unfold braceSpan
  rw [takeWhile_append_head pre '\x7b' (mid ++ post)
        (fun c hc => by simpa using hpre c hc) (by simp),
      List.drop_left]
  dsimp only
  rw [if_pos]
  · congr 1
    rw [hmid0]
    simp only [List.append_assoc, List.singleton_append, List.reverse_append,
      List.reverse_cons]
    rw [dropWhile_append_all post.reverse _ (fun c hc => by
          simpa using hpost c (by simpa using hc))]
    simp
  · rw [hmid0]
    simp

/-- Amended claim C3: when the service reply is a syntactically valid
brace-delimited JSON object surrounded by extraneous text whose leading
part contains no `{` and whose trailing part contains no `}`,
`call_llm` parses the object and returns the value keyed by the
section's own name, or the whole object when that key is absent, with no
warning. -/
theorem call_llm_of_parse (svc : String → String) (sec body : String)
    (span : List Char) (parsed : Json)
    (hb : (stripStr body).isEmpty = false)
    (hs : braceSpan (svc (fullPromptFor sec body)).data = some span)
    (hj : jsonLoads ⟨span⟩ = some parsed) :
    call_llm svc sec body = ⟨pyGetD parsed sec, []⟩ := by
  unfold call_llm
  rw [if_neg (by rw [hb]; exact Bool.false_ne_true), hs]
  dsimp only
  rw [hj]

theorem claim_C3 (svc : String → String) (sec body : String)
    (pre mid post : List Char) (kvs : List (String × Json))
    (hbody : (stripStr body).isEmpty = false)
    (hresp : (svc (fullPromptFor sec body)).data = pre ++ '\x7b' :: (mid ++ post))
    (hpre : ∀ c ∈ pre, ¬ c = '\x7b')
    (hpost : ∀ c ∈ post, ¬ c = '\x7d')
    (hmid : mid.getLast? = some '\x7d')
    (hparse : jsonLoads ⟨'\x7b' :: mid⟩ = some (Json.obj kvs)) :
    (call_llm svc sec body).val = (lookupLast kvs sec).getD (Json.obj kvs) ∧
    (call_llm svc sec body).warns = [] := by
  have hc := call_llm_of_parse svc sec body ('\x7b' :: mid) (Json.obj kvs) hbody
    (by rw [hresp]; exact braceSpan_of_shape pre mid post hpre hpost hmid) hparse
  rw [hc]
  exact ⟨rfl, rfl⟩


/-- Witness for C3: a reply with harmless commentary on both sides is
parsed and the value under the section key is returned. -/
theorem claim_C3_witness :
    (call_llm svcWrapped "Projects" "body").val = Json.arr [Json.str "x"] ∧
    (call_llm svcWrapped "Projects" "body").warns = [] := by
  have h := claim_C3 svcWrapped "Projects" "body"
    "Sure, here you go: ".data "\"Projects\": [\"x\"]\x7d".data " Hope this helps.".data
    [("Projects", Json.arr [Json.str "x"])]
    (by decide) (by decide) (by decide) (by decide) (by decide) (by rfl)
  exact ⟨h.1.trans (by rfl), h.2⟩


/-- Counterexample to C3 as stated: the reply contains exactly one
brace-delimited syntactically valid JSON object followed by extraneous
text, yet the result collapses to the empty sentinel, because the
extracted span runs to the *last* `}` of the reply and no longer
parses. -/
theorem claim_C3_counterexample :
    svcTrailBrace (fullPromptFor "Projects" "x") =
      "\x7b\"Projects\": [\"x\"]\x7d" ++ " ok\x7d" ∧
    (jsonLoads "\x7b\"Projects\": [\"x\"]\x7d").isSome = true ∧
    (call_llm svcTrailBrace "Projects" "x").val = sentinelFor "Projects" ∧
    (call_llm svcTrailBrace "Projects" "x").warns = [warnBadJson "Projects"] := by
  refine ⟨by decide, by decide, ?_, ?_⟩ <;> rfl

/-! ## `find_sections` key invariant (claim C4) -/

theorem pyUpd_map_fst {α : Type} (d : List (String × α)) (k : String) (v : α)
    (h : d.any (fun p => p.1 = k) = true) :
    (pyUpd d k v).map Prod.fst = d.map Prod.fst := by
  unfold pyUpd
  rw [if_pos h, List.map_map]
  refine List.map_congr_left (fun p hp => ?_)
  by_cases hk : p.1 = k
  · simp [hk]
  · simp [hk]

theorem foldl_pyUpd_map_fst {α β : Type} (f : β → String) (g : β → α)
    (l : List β) (d : List (String × α))
    (h : ∀ b ∈ l, f b ∈ d.map Prod.fst) :
    (l.foldl (fun acc b => pyUpd acc (f b) (g b)) d).map Prod.fst =
      d.map Prod.fst := by
  induction l generalizing d with
  | nil => rfl
  | cons b l ih =>
    have hb : f b ∈ d.map Prod.fst := h b (by simp)
    have hany : d.any (fun p => p.1 = f b) = true := by
      rw [List.any_eq_true]
      obtain ⟨p, hp, hfp⟩ := List.mem_map.mp hb
      exact ⟨p, hp, by simp [hfp]⟩
    have hkeys := pyUpd_map_fst d (f b) (g b) hany
    rw [List.foldl_cons, ih _ (fun b' hb' => by rw [hkeys]; exact h b' (by simp [hb'])),
        hkeys]

theorem mem_markersOf_name (lines : List String) (m : Nat × String)
    (h : m ∈ markersOf lines) : m.2 ∈ SECTION_ORDER := by
  unfold markersOf at h
  obtain ⟨p, _, hm⟩ := List.mem_flatMap.mp h
  obtain ⟨nm, hnm, hmk⟩ := List.mem_map.mp hm
  rw [← hmk]
  exact (List.mem_filter.mp hnm).1

/-- Claim C4: `find_sections` always returns an association list whose
keys are exactly the eleven enumerated section names in order, and when
no line of the document matches any heading pattern every key is mapped
to the empty string. -/
theorem claim_C4 (text : String) :
    (find_sections text).map Prod.fst = SECTION_ORDER ∧
    ((strippedLines text).all (fun ln => !anyHeading ln) = true →
      find_sections text = SECTION_ORDER.map (fun k => (k, ""))) := by
  have hinit : ((SECTION_ORDER.map (fun k => (k, ""))).map Prod.fst : List String) =
      SECTION_ORDER := by rfl
  constructor
  · simp only [find_sections]
    refine Eq.trans (foldl_pyUpd_map_fst
      (fun pr : (Nat × String) × (Nat × String) => pr.1.2) _ _ _ ?_) hinit
    intro pr hpr
    rw [hinit]
    have h1 : pr.1 ∈ sortMarkers (markersOf (strippedLines text)) :=
      (List.of_mem_zip hpr).1
    have h2 : pr.1 ∈ markersOf (strippedLines text) :=
      ((List.perm_insertionSort markerRel _).mem_iff).mp h1
    exact mem_markersOf_name _ _ h2
  · intro h
    have hm : markersOf (strippedLines text) = [] := by
      unfold markersOf
      rw [List.flatMap_eq_nil_iff]
      intro p hp
      have hln : p.2 ∈ strippedLines text := by
        clear h
        revert hp
        generalize 0 = n
        induction strippedLines text generalizing n with
        | nil => intro hp; exact absurd hp (by simp [enumFromL])
        | cons a l ih =>
          intro hp
          unfold enumFromL at hp
          rcases List.mem_cons.mp hp with h1 | h1
          · rw [h1]; exact List.mem_cons_self _ _
          · exact List.mem_cons_of_mem _ (ih _ h1)
      have hall := List.all_eq_true.mp h p.2 hln
      simp only [Bool.not_eq_true'] at hall
      unfold anyHeading at hall
      rw [List.map_eq_nil_iff, List.filter_eq_nil_iff]
      intro nm hnm
      have := List.any_eq_false.mp hall nm hnm
      simp [this]
    simp only [find_sections, hm]
    rfl

/-- Witness for C4 at a concrete heading-free document. -/
theorem claim_C4_witness :
    (find_sections "hello\nworld").map Prod.fst = SECTION_ORDER ∧
    find_sections "hello\nworld" = SECTION_ORDER.map (fun k => (k, "")) :=
  ⟨(claim_C4 "hello\nworld").1, (claim_C4 "hello\nworld").2 (by decide)⟩

/-! ## List helpers for the matcher proofs -/

theorem getD_append_len {α : Type} (A : List α) (b : α) (B : List α) (d : α) :
    (A ++ b :: B).getD A.length d = b := by
  induction A with
  | nil => rfl
  | cons a A ih => simpa using ih

theorem drop_append_len_succ {α : Type} (A : List α) (b : α) (B : List α) :
    (A ++ b :: B).drop (A.length + 1) = B := by
  induction A with
  | nil => rfl
  | cons a A ih => simp [ih]

theorem take_all_of_le_takeWhile {p : Char → Bool} (cs : List Char) (k : Nat)
    (h : k ≤ (cs.takeWhile p).length) : (cs.take k).all p = true := by
  induction cs generalizing k with
  | nil => simp [List.take]
  | cons c cs ih =>
    cases k with
    | zero => simp
    | succ k =>
      by_cases hc : p c = true
      · simp only [List.takeWhile_cons, hc, if_true, List.length_cons,
          Nat.succ_le_succ_iff] at h
        simp [hc, ih k h]
      · simp [List.takeWhile_cons, hc] at h

/-! ## Soundness and completeness of the e-mail matcher -/

theorem domSplit_spec (R : List Char) (j : Nat) (h : domSplit R = some j) :
    1 ≤ j ∧ j < R.length ∧ R.getD j ' ' = '.' ∧
      2 ≤ letterRun (R.drop (j+1)) := by
  unfold domSplit at h
  have hmem := List.mem_of_find?_eq_some h
  have hp := List.find?_some h
  simp only [List.mem_filter, List.mem_reverse, List.mem_range] at hmem
  simp only [Bool.and_eq_true, decide_eq_true_eq] at hp
  exact ⟨by simpa using hmem.2, hmem.1, hp.1, hp.2⟩

theorem domSplit_isSome (R : List Char) (j : Nat)
    (h1 : 1 ≤ j) (h2 : j < R.length) (h3 : R.getD j ' ' = '.')
    (h4 : 2 ≤ letterRun (R.drop (j+1))) : (domSplit R).isSome = true := by
  unfold domSplit
  rw [List.find?_isSome]
  refine ⟨j, ?_, ?_⟩
  · simp only [List.mem_filter, List.mem_reverse, List.mem_range]
    exact ⟨h2, by simpa using h1⟩
  · simp only [Bool.and_eq_true, decide_eq_true_eq]
    exact ⟨h3, h4⟩


theorem takeWhile_append_drop (p : Char → Bool) (cs : List Char) :
    cs.takeWhile p ++ cs.drop (cs.takeWhile p).length = cs := by
  induction cs with
  | nil => rfl
  | cons c cs ih =>
    by_cases hc : p c = true
    · simp [List.takeWhile_cons, hc, ih]
    · simp [List.takeWhile_cons, hc]

theorem length_takeWhile_le (p : Char → Bool) (l : List Char) :
    (l.takeWhile p).length ≤ l.length := by
  induction l with
  | nil => simp
  | cons c cs ih =>
    by_cases hc : p c = true
    · simp only [List.takeWhile_cons, hc, if_true, List.length_cons]
      omega
    · simp [List.takeWhile_cons, hc]

theorem emailMatchAt_sound (cs m : List Char) (h : emailMatchAt cs = some m) :
    emailShapeB m = true ∧ ∃ t, cs = m ++ t := by
  unfold emailMatchAt at h
  split at h
  · exact absurd h (by simp)
  · rename_i hne
    split at h
    · rename_i rest hdrop
      split at h
      · rename_i j hsplit
        simp only [Option.some.injEq] at h
        obtain ⟨hj1, hj2, hjdot, hjlet⟩ := domSplit_spec _ _ hsplit
        subst h
        set l := cs.takeWhile isLocalCh with hldef
        set R := rest.takeWhile isDomCh with hRdef
        set lr := letterRun (R.drop (j+1)) with hlrdef
        set T := (R.drop (j+1)).take (min 6 lr) with hTdef
        have hlall : ∀ c ∈ l, isLocalCh c = true := fun c hc =>
          List.mem_takeWhile_imp hc
        have hlenj : (R.take j).length = j := by
          rw [List.length_take]; omega
        have hTlen : T.length = min 6 lr := by
          rw [hTdef, List.length_take]
          have h1 : lr ≤ (R.drop (j+1)).length := by
            rw [hlrdef]
            unfold letterRun
            exact length_takeWhile_le Char.isAlpha _
          omega
        have ha : (l ++ '@' :: (R.take j ++ '.' :: T)).takeWhile isLocalCh = l :=
          takeWhile_append_head l '@' _ hlall (by decide)
        have htail : (R.take j ++ '.' :: T).length = j + 1 + T.length := by
          simp [hlenj]
          omega
        constructor
        · unfold emailShapeB
          rw [ha, List.drop_left]
          split
          case _ rest' heq =>
            injection heq with heq2 heq3
            subst heq3
            rw [Bool.and_eq_true]
            constructor
            · simp only [Bool.not_eq_true']
              exact Bool.not_eq_true _ ▸ (by simpa using hne)
            · rw [List.any_eq_true]
              refine ⟨j, List.mem_range.mpr (by omega), ?_⟩
              simp only [Bool.and_eq_true, decide_eq_true_eq]
              refine ⟨⟨⟨⟨⟨hj1, ?_⟩, ?_⟩, ?_⟩, ?_⟩, ?_⟩
              · have hg := getD_append_len (R.take j) '.' T ' '
                rwa [hlenj] at hg
              · have ht := List.take_left (R.take j) ('.' :: T)
                rw [hlenj] at ht
                rw [ht, List.all_eq_true]
                intro c hc
                exact List.mem_takeWhile_imp (List.take_subset _ _ hc)
              · have hd := drop_append_len_succ (R.take j) '.' T
                rw [hlenj] at hd
                rw [hd, hTdef]
                exact take_all_of_le_takeWhile _ _ (Nat.min_le_right _ _)
              · rw [htail]
                have : 2 ≤ min 6 lr := by omega
                omega
              · rw [htail]
                omega
          case _ hfa =>
            exact absurd rfl (fun hh => by cases (hfa _ hh))
        · refine ⟨(R.drop (j+1)).drop (min 6 lr) ++ rest.drop R.length, ?_⟩
          have e1 : T ++ (R.drop (j+1)).drop (min 6 lr) = R.drop (j+1) := by
            rw [hTdef]; exact List.take_append_drop _ _
          have e2 : ('.' : Char) :: R.drop (j+1) = R.drop j := by
            rw [List.drop_eq_getElem_cons hj2]
            have := List.getD_eq_getElem R ' ' hj2
            rw [this] at hjdot
            rw [hjdot]
          have e3 : R.take j ++ R.drop j = R := List.take_append_drop _ _
          have e4 : R ++ rest.drop R.length = rest := by
            rw [hRdef]; exact takeWhile_append_drop isDomCh rest
          have e5 : l ++ cs.drop l.length = cs := by
            rw [hldef]; exact takeWhile_append_drop isLocalCh cs
          symm
          calc (l ++ '@' :: (R.take j ++ '.' :: T)) ++
                ((R.drop (j+1)).drop (min 6 lr) ++ rest.drop R.length)
              = l ++ '@' :: ((R.take j ++ '.' :: (T ++ (R.drop (j+1)).drop (min 6 lr)))
                  ++ rest.drop R.length) := by simp [List.append_assoc]
            _ = l ++ '@' :: ((R.take j ++ '.' :: R.drop (j+1)) ++ rest.drop R.length) := by
                  rw [e1]
            _ = l ++ '@' :: ((R.take j ++ R.drop j) ++ rest.drop R.length) := by rw [e2]
            _ = l ++ '@' :: (R ++ rest.drop R.length) := by rw [e3]
            _ = l ++ '@' :: rest := by rw [e4]
            _ = cs := by rw [← hdrop]; exact e5
      · exact absurd h (by simp)
    · exact absurd h (by simp)

theorem isDomCh_of_isAlpha (c : Char) (h : c.isAlpha = true) : isDomCh c = true := by
  unfold isDomCh
  simp [h]

theorem emailMatchAt_isSome_of_decomp (l restm tail2 : List Char)
    (hl : l.isEmpty = false) (hlall : ∀ c ∈ l, isLocalCh c = true)
    (j : Nat) (hj1 : 1 ≤ j) (hjlen : j + 3 ≤ restm.length)
    (hjdot : restm.getD j ' ' = '.')
    (hjdom : (restm.take j).all isDomCh = true)
    (hjal : (restm.drop (j+1)).all Char.isAlpha = true) :
    (emailMatchAt (l ++ '@' :: (restm ++ tail2))).isSome = true := by
  have ha : (l ++ '@' :: (restm ++ tail2)).takeWhile isLocalCh = l :=
    takeWhile_append_head l '@' _ hlall (by decide)
  have hjr : j < restm.length := by omega
  have hallrest : ∀ c ∈ restm, isDomCh c = true := by
    intro c hc
    rw [← List.take_append_drop j restm] at hc
    rcases List.mem_append.mp hc with hc | hc
    · exact List.all_eq_true.mp hjdom c hc
    · rw [List.drop_eq_getElem_cons hjr] at hc
      rcases List.mem_cons.mp hc with hc | hc
      · rw [hc, ← List.getD_eq_getElem restm ' ' hjr, hjdot]
        decide
      · exact isDomCh_of_isAlpha c (List.all_eq_true.mp hjal c hc)
  have hR : (restm ++ tail2).takeWhile isDomCh = restm ++ tail2.takeWhile isDomCh :=
    List.takeWhile_append_of_pos hallrest
  have hds : (domSplit ((restm ++ tail2).takeWhile isDomCh)).isSome = true := by
    refine domSplit_isSome _ j hj1 ?_ ?_ ?_
    · rw [hR, List.length_append]
      omega
    · rw [hR, List.getD_append _ _ _ _ hjr]
      exact hjdot
    · rw [hR, List.drop_append_of_le_length (by omega)]
      have hlen : (restm.drop (j+1)).length = restm.length - (j+1) :=
        List.length_drop _ _
      have : letterRun (restm.drop (j+1) ++ tail2.takeWhile isDomCh) =
          (restm.drop (j+1)).length + (letterRun (tail2.takeWhile isDomCh)) := by
        unfold letterRun
        rw [List.takeWhile_append_of_pos (List.all_eq_true.mp hjal),
            List.length_append]
      omega
  unfold emailMatchAt
  rw [if_neg (by rw [ha, hl]; exact Bool.false_ne_true), ha, List.drop_left]
  split
  case _ restw heq =>
    injection heq with heq2 heq3
    subst heq3
    cases hsp : domSplit ((restm ++ tail2).takeWhile isDomCh) with
    | none => rw [hsp] at hds; exact absurd hds (by simp)
    | some jw => rfl
  case _ hfa =>
    exact absurd rfl (fun hh => by cases (hfa _ hh))

theorem emailMatchAt_isSome_of_pre (cs : List Char) (h : hasEmailPre cs = true) :
    (emailMatchAt cs).isSome = true := by
  unfold hasEmailPre at h
  rw [List.any_eq_true] at h
  obtain ⟨k, _, hshape⟩ := h
  unfold emailShapeB at hshape
  split at hshape
  case _ restm heq =>
    rw [Bool.and_eq_true, List.any_eq_true] at hshape
    obtain ⟨hne, j, hjmem, hjpred⟩ := hshape
    simp only [Bool.and_eq_true, decide_eq_true_eq] at hjpred
    obtain ⟨⟨⟨⟨⟨hj1, hjdot⟩, hjdom⟩, hjal⟩, hj2⟩, _⟩ := hjpred
    have htake : cs.take k = (cs.take k).takeWhile isLocalCh ++ '@' :: restm := by
      conv_lhs => rw [← takeWhile_append_drop isLocalCh (cs.take k)]
      rw [heq]
    have hcs : cs = (cs.take k).takeWhile isLocalCh ++ '@' :: (restm ++ cs.drop k) := by
      conv_lhs => rw [← List.take_append_drop k cs, htake]
      simp
    rw [hcs]
    refine emailMatchAt_isSome_of_decomp _ _ _ ?_ ?_ j hj1 (by omega) hjdot hjdom hjal
    · simpa using hne
    · exact fun c hc => List.mem_takeWhile_imp hc
  case _ =>
    exact absurd hshape (by simp)

theorem emailMatchAt_ne_nil (cs m : List Char) (h : emailMatchAt cs = some m) :
    m ≠ [] := by
  intro hnil
  have := (emailMatchAt_sound cs m h).1
  rw [hnil] at this
  exact absurd this (by decide)

theorem hasEmailPre_of_matchAt (cs m : List Char) (h : emailMatchAt cs = some m) :
    hasEmailPre cs = true := by
  obtain ⟨hshape, t, ht⟩ := emailMatchAt_sound cs m h
  unfold hasEmailPre
  rw [List.any_eq_true]
  refine ⟨m.length, List.mem_range.mpr ?_, ?_⟩
  · rw [ht, List.length_append]
    omega
  · rw [ht, List.take_left]
    exact hshape

theorem emailMatchAt_eq_none_of_pre_false (cs : List Char)
    (h : hasEmailPre cs = false) : emailMatchAt cs = none := by
  cases hm : emailMatchAt cs with
  | none => rfl
  | some m =>
    rw [hasEmailPre_of_matchAt cs m hm] at h
    exact absurd h (by simp)

theorem hasEmailPre_nil : hasEmailPre [] = false := by decide

theorem emailSearchCh_eq_none_iff (cs : List Char) :
    emailSearchCh cs = none ↔ ∀ i, hasEmailPre (cs.drop i) = false := by
  induction cs with
  | nil =>
    simp only [emailSearchCh, List.drop_nil, true_iff]
    exact fun _ => hasEmailPre_nil
  | cons c cs ih =>
    constructor
    · intro h i
      unfold emailSearchCh at h
      split at h
      · exact absurd h (by simp)
      · rename_i hm
        cases i with
        | zero =>
          rw [List.drop_zero]
          cases hp : hasEmailPre (c :: cs) with
          | false => rfl
          | true =>
            have hsome := emailMatchAt_isSome_of_pre _ hp
            rw [hm] at hsome
            exact absurd hsome (by simp)
        | succ i => exact ih.mp h i
    · intro h
      unfold emailSearchCh
      have hm : emailMatchAt (c :: cs) = none :=
        emailMatchAt_eq_none_of_pre_false _ (by simpa using h 0)
      rw [hm]
      exact ih.mpr (fun i => by simpa using h (i + 1))

theorem emailSearchCh_eq_some (cs m : List Char) (h : emailSearchCh cs = some m) :
    ∃ p q, cs = p ++ m ++ q ∧ emailShapeB m = true ∧
      ∀ i, i < p.length → emailMatchAt (cs.drop i) = none := by
  induction cs with
  | nil => exact absurd h (by simp [emailSearchCh])
  | cons c cs ih =>
    unfold emailSearchCh at h
    split at h
    · rename_i m0 hm
      simp only [Option.some.injEq] at h
      subst h
      obtain ⟨hshape, t, ht⟩ := emailMatchAt_sound _ _ hm
      exact ⟨[], t, by simpa using ht, hshape, fun i hi => absurd hi (by simp)⟩
    · rename_i hm
      obtain ⟨p, q, hpq, hshape, hmin⟩ := ih h
      refine ⟨c :: p, q, by simp [hpq], hshape, ?_⟩
      intro i hi
      cases i with
      | zero => exact hm
      | succ i => exact hmin i (by simpa using hi)

theorem hasEmailSub_eq_false_iff (cs : List Char) :
    hasEmailSub cs = false ↔ ∀ i, hasEmailPre (cs.drop i) = false := by
  unfold hasEmailSub
  rw [List.any_eq_false]
  constructor
  · intro h i
    by_cases hi : i < cs.length + 1
    · have := h i (List.mem_range.mpr hi)
      simpa using this
    · rw [List.drop_eq_nil_of_le (by omega)]
      exact hasEmailPre_nil
  · intro h i _
    simp [h i]

theorem emailSearchCh_none_iff_sub (cs : List Char) :
    emailSearchCh cs = none ↔ hasEmailSub cs = false := by
  rw [emailSearchCh_eq_none_iff, hasEmailSub_eq_false_iff]

theorem findSome?_eq_some_decomp {α β : Type} (f : α → Option β) (l : List α)
    (v : β) (h : l.findSome? f = some v) :
    ∃ i x, l.get? i = some x ∧ f x = some v ∧
      ∀ j x2, j < i → l.get? j = some x2 → f x2 = none := by
  induction l with
  | nil => exact absurd h (by simp)
  | cons a l ih =>
    rw [List.findSome?_cons] at h
    split at h
    · rename_i b hb
      simp only [Option.some.injEq] at h
      subst h
      exact ⟨0, a, rfl, hb, fun j x2 hj => absurd hj (by simp)⟩
    · rename_i hb
      obtain ⟨i, x, hg, hf, hmin⟩ := ih h
      refine ⟨i + 1, x, by simpa using hg, hf, ?_⟩
      intro j x2 hj hx2
      cases j with
      | zero =>
        simp only [List.get?_cons_zero, Option.some.injEq] at hx2
        rw [← hx2]
        exact hb
      | succ j => exact hmin j x2 (by omega) (by simpa using hx2)

/-! ## Claim C1: the e-mail field of `extract_contact` -/

/-- Amended claim C1 (the scope is the scanned window — the first 30
physical lines, stripped and with empty lines removed — rather than the
whole document, see the counterexample): the Email field of
`extract_contact` is empty exactly when no window line contains an
e-mail-shaped substring, and otherwise it is the first match in window
order — an e-mail-shaped substring of the first window line containing
one, starting at the leftmost possible position — all regardless of the
entity-recognition oracle and hence of the name-resolution strategy. -/
theorem claim_C1 (text : String) (ner : String → List (String × String)) :
    ((extract_contact ner text).email = "" →
      ∀ ln ∈ contactLines text, hasEmailSub ln.data = false) ∧
    ((extract_contact ner text).email ≠ "" →
      emailShapeB (extract_contact ner text).email.data = true ∧
      ∃ i ln, (contactLines text).get? i = some ln ∧
        (∀ j ln2, j < i → (contactLines text).get? j = some ln2 →
          hasEmailSub ln2.data = false) ∧
        ∃ p q, ln.data = p ++ (extract_contact ner text).email.data ++ q ∧
          ∀ p2 m2 q2, ln.data = p2 ++ m2 ++ q2 → emailShapeB m2 = true →
            p.length ≤ p2.length) ∧
    (∀ ner2, (extract_contact ner2 text).email = (extract_contact ner text).email) := by
  have hemail : (extract_contact ner text).email = firstEmailOf (contactLines text) := rfl
  refine ⟨?_, ?_, fun ner2 => rfl⟩
  · intro h0 ln hln
    rw [hemail] at h0
    unfold firstEmailOf at h0
    cases hf : (contactLines text).findSome? (fun ln => emailSearchCh ln.data) with
    | none =>
      have := List.findSome?_eq_none_iff.mp hf ln hln
      exact (emailSearchCh_none_iff_sub ln.data).mp this
    | some lcs =>
      rw [hf] at h0
      have h1 : (⟨lcs⟩ : String) = "" := h0
      have hnil : lcs = [] := by
        have h2 : (⟨lcs⟩ : String).data = ("" : String).data := by rw [h1]
        simpa using h2
      obtain ⟨i, x, hg, hfx, _⟩ := findSome?_eq_some_decomp _ _ _ hf
      obtain ⟨p2, q2, hpq2, hsh2, _⟩ := emailSearchCh_eq_some _ _ hfx
      rw [hnil] at hsh2
      exact absurd hsh2 (by decide)
  · intro h0
    rw [hemail] at h0 ⊢
    unfold firstEmailOf at h0 ⊢
    cases hf : (contactLines text).findSome? (fun ln => emailSearchCh ln.data) with
    | none => rw [hf] at h0; exact absurd rfl h0
    | some lcs =>
      have hgd : (((some lcs).map (fun l => (⟨l⟩ : String))).getD "") =
          (⟨lcs⟩ : String) := rfl
      rw [hgd]
      obtain ⟨i, ln, hg, hfx, hmin⟩ := findSome?_eq_some_decomp _ _ _ hf
      obtain ⟨p, q, hpq, hshape, hminP⟩ := emailSearchCh_eq_some _ _ hfx
      refine ⟨by simpa using hshape, i, ln, hg, ?_, p, q, by simpa using hpq, ?_⟩
      · intro j ln2 hj hln2
        exact (emailSearchCh_none_iff_sub ln2.data).mp (hmin j ln2 hj hln2)
      · intro p2 m2 q2 hdec hsh2
        by_contra hlt
        push_neg at hlt
        have hpre : hasEmailPre (ln.data.drop p2.length) = true := by
          unfold hasEmailPre
          rw [List.any_eq_true]
          refine ⟨m2.length, List.mem_range.mpr ?_, ?_⟩
          · rw [hdec, List.append_assoc, List.drop_left, List.length_append]
            omega
          · rw [hdec, List.append_assoc, List.drop_left, List.take_left]
            exact hsh2
        have := emailMatchAt_isSome_of_pre _ hpre
        rw [hminP p2.length hlt] at this
        exact absurd this (by simp)



/-- Counterexample to C1 as stated: a document whose only e-mail match
sits after the 30-line window — the document contains a substring
matching the e-mail pattern, yet the Email field is empty rather than
equal to that first match. -/
theorem claim_C1_counterexample :
    hasEmailSub docLateEmail.data = true ∧
    emailSearchCh docLateEmail.data = some "a@b.co".data ∧
    (extract_contact nerNone docLateEmail).email = "" := by
  refine ⟨by decide, by decide, ?_⟩
  rfl

/-- Witness for C1 on a concrete document whose second line carries the
first e-mail. -/
theorem claim_C1_witness :
    emailShapeB (extract_contact nerNone "John Doe\ncontact: john.doe@mail.com\n").email.data = true ∧
    (∃ i ln, (contactLines "John Doe\ncontact: john.doe@mail.com\n").get? i = some ln ∧
      (∀ j ln2, j < i →
        (contactLines "John Doe\ncontact: john.doe@mail.com\n").get? j = some ln2 →
        hasEmailSub ln2.data = false) ∧
      ∃ p q, ln.data = p ++ (extract_contact nerNone "John Doe\ncontact: john.doe@mail.com\n").email.data ++ q ∧
        ∀ p2 m2 q2, ln.data = p2 ++ m2 ++ q2 → emailShapeB m2 = true →
          p.length ≤ p2.length) :=
  (claim_C1 "John Doe\ncontact: john.doe@mail.com\n" nerNone).2.1 (by decide)

/-! ## Title-casing and the phone matcher (claim C8) -/

theorem toLowerPy_def (c : Char) :
    toLowerPy c = ((lowerPairs.find? (fun p => p.1 = c)).map (fun p => p.2)).getD c := rfl

theorem toUpperPy_def (c : Char) :
    toUpperPy c = ((upperPairs.find? (fun p => p.1 = c)).map (fun p => p.2)).getD c := rfl

theorem toLowerPy_idem (c : Char) : toLowerPy (toLowerPy c) = toLowerPy c := by
  cases hfind : lowerPairs.find? (fun p => p.1 = c) with
  | none =>
    have h1 : toLowerPy c = c := by rw [toLowerPy_def, hfind]; rfl
    simp only [h1]
  | some pr =>
    have h1 : toLowerPy c = pr.2 := by rw [toLowerPy_def, hfind]; rfl
    rw [h1]
    have hmem := List.mem_of_find?_eq_some hfind
    have hnone : lowerPairs.find? (fun p => p.1 = pr.2) = none := by
      rw [List.find?_eq_none]
      intro q hq
      have hfact : lowerPairs.all
          (fun p => lowerPairs.all (fun q => !(q.1 = p.2))) = true := by decide
      have := List.all_eq_true.mp (List.all_eq_true.mp hfact pr hmem) q hq
      simpa using this
    rw [toLowerPy_def, hnone]
    rfl

theorem toUpperPy_idem (c : Char) : toUpperPy (toUpperPy c) = toUpperPy c := by
  cases hfind : upperPairs.find? (fun p => p.1 = c) with
  | none =>
    have h1 : toUpperPy c = c := by rw [toUpperPy_def, hfind]; rfl
    simp only [h1]
  | some pr =>
    have h1 : toUpperPy c = pr.2 := by rw [toUpperPy_def, hfind]; rfl
    rw [h1]
    have hmem := List.mem_of_find?_eq_some hfind
    have hnone : upperPairs.find? (fun p => p.1 = pr.2) = none := by
      rw [List.find?_eq_none]
      intro q hq
      have hfact : upperPairs.all
          (fun p => upperPairs.all (fun q => !(q.1 = p.2))) = true := by decide
      have := List.all_eq_true.mp (List.all_eq_true.mp hfact pr hmem) q hq
      simpa using this
    rw [toUpperPy_def, hnone]
    rfl

theorem isCasedPy_toLowerPy (c : Char) : isCasedPy (toLowerPy c) = isCasedPy c := by
  cases hfind : lowerPairs.find? (fun p => p.1 = c) with
  | none =>
    have h1 : toLowerPy c = c := by rw [toLowerPy_def, hfind]; rfl
    rw [h1]
  | some pr =>
    have h1 : toLowerPy c = pr.2 := by rw [toLowerPy_def, hfind]; rfl
    rw [h1]
    have hmem := List.mem_of_find?_eq_some hfind
    have hp := List.find?_some hfind
    simp only [decide_eq_true_eq] at hp
    have h2 : isCasedPy c = true := by
      unfold isCasedPy
      rw [List.any_eq_true]
      exact ⟨pr, hmem, by simp [hp]⟩
    have h3 : isCasedPy pr.2 = true := by
      unfold isCasedPy
      rw [List.any_eq_true]
      exact ⟨pr, hmem, by simp⟩
    rw [h2, h3]

theorem isCasedPy_toUpperPy (c : Char) : isCasedPy (toUpperPy c) = isCasedPy c := by
  cases hfind : upperPairs.find? (fun p => p.1 = c) with
  | none =>
    have h1 : toUpperPy c = c := by rw [toUpperPy_def, hfind]; rfl
    rw [h1]
  | some pr =>
    have h1 : toUpperPy c = pr.2 := by rw [toUpperPy_def, hfind]; rfl
    rw [h1]
    have hmem := List.mem_of_find?_eq_some hfind
    have hp := List.find?_some hfind
    simp only [decide_eq_true_eq] at hp
    obtain ⟨q, hq, hqpr⟩ := List.mem_map.mp hmem
    have h2 : isCasedPy c = true := by
      unfold isCasedPy
      rw [List.any_eq_true]
      refine ⟨q, hq, ?_⟩
      have hqc : q.2 = c := by rw [← hp, ← hqpr]
      simp [hqc]
    have h3 : isCasedPy pr.2 = true := by
      unfold isCasedPy
      rw [List.any_eq_true]
      refine ⟨q, hq, ?_⟩
      have hqp : q.1 = pr.2 := by rw [← hqpr]
      simp [hqp]
    rw [h2, h3]

theorem titleGo_idem (l : List Char) : ∀ b, titleGo b (titleGo b l) = titleGo b l := by
  induction l with
  | nil => intro b; rfl
  | cons c l ih =>
    intro b
    have hstep : ∀ (b2 : Bool) (c2 : Char) (l2 : List Char), titleGo b2 (c2 :: l2) =
        (if isCasedPy c2 then (if b2 then toLowerPy c2 else toUpperPy c2) else c2)
          :: titleGo (isCasedPy c2) l2 := fun _ _ _ => rfl
    rw [hstep b c l, hstep b]
    by_cases hc : isCasedPy c = true
    · cases b with
      | true => simp [hc, isCasedPy_toLowerPy, toLowerPy_idem, ih]
      | false => simp [hc, isCasedPy_toUpperPy, toUpperPy_idem, ih]
    · simp [hc, ih]

theorem titlePy_idem (s : String) : titlePy (titlePy s) = titlePy s := by
  unfold titlePy
  rw [titleGo_idem]

theorem take_succ_getLast (R : List Char) (k : Nat) (hk : k < R.length) :
    (R.take (k+1)).getLast? = some (R.getD k ' ') := by
  have h1 : R.take (k+1) = R.take k ++ [R.getD k ' '] := by
    rw [List.getD_eq_getElem R ' ' hk, List.take_succ]
    congr 1
    rw [List.getElem?_eq_getElem hk]
    rfl
  rw [h1, List.getLast?_concat]

theorem phoneCoreAt_sound (cs m : List Char) (h : phoneCoreAt cs = some m) :
    phoneShapeCore m = true ∧ (∃ d r2, m = d :: r2 ∧ d.isDigit = true) := by
  unfold phoneCoreAt at h
  split at h
  · exact absurd h (by simp)
  · rename_i c rest
    split at h
    · rename_i hdig
      split at h
      · rename_i k hfind
        simp only [Option.some.injEq] at h
        subst h
        have hmem := List.mem_of_find?_eq_some hfind
        have hpk := List.find?_some hfind
        simp only [List.mem_filter, List.mem_reverse, List.mem_range,
          decide_eq_true_eq] at hmem
        obtain ⟨hklt, hk7⟩ := hmem
        set R := rest.takeWhile isPhoneMid with hRdef
        refine ⟨?_, c, R.take (k+1), rfl, hdig⟩
        unfold phoneShapeCore
        rw [Bool.and_eq_true, Bool.and_eq_true, Bool.and_eq_true]
        simp only [decide_eq_true_eq]
        have hlen : (R.take (k+1)).length = k + 1 := by
          rw [List.length_take]; omega
        refine ⟨⟨⟨hdig, by rw [hlen]; omega⟩, ?_⟩, ?_⟩
        · rw [List.all_eq_true]
          intro x hx
          have hx2 : x ∈ R := List.take_subset _ _ (List.take_subset _ _ hx)
          exact List.mem_takeWhile_imp hx2
        · rw [take_succ_getLast R k hklt]
          exact hpk
      · exact absurd h (by simp)
    · exact absurd h (by simp)

theorem phoneMatchAt_sound (cs m : List Char) (h : phoneMatchAt cs = some m) :
    phoneShapeB m = true := by
  unfold phoneMatchAt at h
  split at h
  · exact absurd h (by simp)
  · rename_i c rest
    split at h
    · rename_i hplus
      cases hc : phoneCoreAt rest with
      | none => rw [hc] at h; exact absurd h (by simp)
      | some m0 =>
        rw [hc] at h
        have h2 : '+' :: m0 = m := by
          have : some ('+' :: m0) = some m := h
          simpa using this
        subst h2
        obtain ⟨hcore, _⟩ := phoneCoreAt_sound rest m0 hc
        show (if ('+' : Char) = '+' then phoneShapeCore m0
          else phoneShapeCore ('+' :: m0)) = true
        rw [if_pos rfl]
        exact hcore
    · rename_i hplus
      obtain ⟨hcore, d, r2, hm, hdig⟩ := phoneCoreAt_sound _ _ h
      rw [hm]
      show (if d = '+' then phoneShapeCore r2 else phoneShapeCore (d :: r2)) = true
      rw [if_neg (fun hd => absurd (hd ▸ hdig) (by decide))]
      rw [← hm]
      exact hcore

theorem phoneSearchCh_sound (cs m : List Char) (h : phoneSearchCh cs = some m) :
    phoneShapeB m = true := by
  induction cs with
  | nil => exact absurd h (by simp [phoneSearchCh])
  | cons c cs ih =>
    unfold phoneSearchCh at h
    split at h
    · rename_i m0 hm
      simp only [Option.some.injEq] at h
      subst h
      exact phoneMatchAt_sound _ _ hm
    · exact ih h

/-- Claim C8: `extract_contact` is total (never raises — it is a total
function of its inputs) and returns a record in which both name fields
are fixed points of title-casing, Email is empty or a full match of the
e-mail lexical pattern, Phone is empty or a full match of the phone
lexical pattern, and an unresolvable name (no name line, no qualifying
entity, no e-mail) yields empty name fields, never a placeholder. -/
theorem claim_C8 (text : String) (ner : String → List (String × String)) :
    titlePy (extract_contact ner text).firstName = (extract_contact ner text).firstName ∧
    titlePy (extract_contact ner text).lastName = (extract_contact ner text).lastName ∧
    ((extract_contact ner text).email = "" ∨
      emailShapeB (extract_contact ner text).email.data = true) ∧
    ((extract_contact ner text).phone = "" ∨
      phoneShapeB (extract_contact ner text).phone.data = true) ∧
    ((nameLineOf (contactLines text) = "" ∧
        entCandidatesOf ner (contactLines text) = [] ∧
        firstEmailOf (contactLines text) = "") →
      (extract_contact ner text).firstName = "" ∧
      (extract_contact ner text).lastName = "") := by
  refine ⟨?_, ?_, ?_, ?_, ?_⟩
  · rw [show (extract_contact ner text).firstName =
      titlePy (humanFL (rawName ner (contactLines text))).1 from rfl]
    exact titlePy_idem _
  · rw [show (extract_contact ner text).lastName =
      titlePy (humanFL (rawName ner (contactLines text))).2 from rfl]
    exact titlePy_idem _
  · rw [show (extract_contact ner text).email = firstEmailOf (contactLines text) from rfl]
    unfold firstEmailOf
    cases hf : (contactLines text).findSome? (fun ln => emailSearchCh ln.data) with
    | none => exact Or.inl rfl
    | some lcs =>
      obtain ⟨i, ln, hg, hfx, _⟩ := findSome?_eq_some_decomp _ _ _ hf
      obtain ⟨p, q, _, hshape, _⟩ := emailSearchCh_eq_some _ _ hfx
      exact Or.inr hshape
  · rw [show (extract_contact ner text).phone = firstPhoneOf (contactLines text) from rfl]
    unfold firstPhoneOf
    cases hf : (contactLines text).findSome? (fun ln => phoneSearchCh ln.data) with
    | none => exact Or.inl rfl
    | some lcs =>
      obtain ⟨i, ln, hg, hfx, _⟩ := findSome?_eq_some_decomp _ _ _ hf
      exact Or.inr (phoneSearchCh_sound _ _ hfx)
  · rintro ⟨h1, h2, h3⟩
    have hr : rawName ner (contactLines text) = "" := by
      unfold rawName
      rw [h1, h2, h3]
      rfl
    constructor
    · rw [show (extract_contact ner text).firstName =
        titlePy (humanFL (rawName ner (contactLines text))).1 from rfl, hr]
      rfl
    · rw [show (extract_contact ner text).lastName =
        titlePy (humanFL (rawName ner (contactLines text))).2 from rfl, hr]
      rfl

/-- Witness for C8: a one-word document with no entities and no e-mail
resolves to empty name fields. -/
theorem claim_C8_witness :
    (extract_contact nerNone "hello").firstName = "" ∧
    (extract_contact nerNone "hello").lastName = "" :=
  (claim_C8 "hello" nerNone).2.2.2.2 ⟨by decide, by decide, by decide⟩

/-- Claim C9: the location-stopword exclusion guards only the
PERSON-entity fallback.  Whenever the first 10 window lines contain a
line of 2–5 tokens with no e-mail or phone match, that line becomes the
name — even when every one of its tokens is a location stopword — for
every behaviour of the entity recognizer. -/
theorem claim_C9 (text : String) (ner : String → List (String × String))
    (ln : String)
    (hfind : ((contactLines text).take 10).find? isNameCand = some ln)
    (hstop : (splitWS ln).all (fun tok => LOCATION_STOP.contains (toLowerStr tok)) = true) :
    (extract_contact ner text).firstName = titlePy (humanFL ln).1 ∧
    (extract_contact ner text).lastName = titlePy (humanFL ln).2 := by
  have hnl : nameLineOf (contactLines text) = ln := by
    unfold nameLineOf
    rw [hfind]
    rfl
  have hcand := List.find?_some hfind
  have hne : ln ≠ "" := by
    intro h
    rw [h] at hcand
    exact absurd hcand (by decide)
  have hr : rawName ner (contactLines text) = ln := by
    unfold rawName
    rw [hnl, if_pos hne]
  constructor
  · rw [show (extract_contact ner text).firstName =
      titlePy (humanFL (rawName ner (contactLines text))).1 from rfl, hr]
  · rw [show (extract_contact ner text).lastName =
      titlePy (humanFL (rawName ner (contactLines text))).2 from rfl, hr]

/-- Witness for C9: a "City Country" line whose both tokens are
location stopwords is still taken as the name line. -/
theorem claim_C9_witness :
    (extract_contact nerNone "Rabat Morocco\njohn@ex.com").firstName =
      titlePy (humanFL "Rabat Morocco").1 ∧
    (extract_contact nerNone "Rabat Morocco\njohn@ex.com").lastName =
      titlePy (humanFL "Rabat Morocco").2 :=
  claim_C9 "Rabat Morocco\njohn@ex.com" nerNone "Rabat Morocco" (by decide) (by decide)

/-! ## `find_sections` last-match-wins (claim C5) -/

theorem charListLe_total (a b : List Char) :
    charListLe a b = true ∨ charListLe b a = true := by
  induction a generalizing b with
  | nil => exact Or.inl rfl
  | cons x xs ih =>
    cases b with
    | nil => exact Or.inr rfl
    | cons y ys =>
      rcases lt_trichotomy x y with h | h | h
      · exact Or.inl (by simp [charListLe, h])
      · subst h
        rcases ih ys with h2 | h2
        · exact Or.inl (by simp [charListLe, h2])
        · exact Or.inr (by simp [charListLe, h2])
      · exact Or.inr (by simp [charListLe, h])

theorem charListLe_trans (a b c : List Char) (h1 : charListLe a b = true)
    (h2 : charListLe b c = true) : charListLe a c = true := by
  induction a generalizing b c with
  | nil => rfl
  | cons x xs ih =>
    cases b with
    | nil => exact absurd h1 (by simp [charListLe])
    | cons y ys =>
      cases c with
      | nil => exact absurd h2 (by simp [charListLe])
      | cons z zs =>
        simp only [charListLe, Bool.or_eq_true, Bool.and_eq_true,
          decide_eq_true_eq] at h1 h2 ⊢
        rcases h1 with h1 | ⟨h1e, h1r⟩
        · rcases h2 with h2 | ⟨h2e, h2r⟩
          · exact Or.inl (lt_trans h1 h2)
          · exact Or.inl (h2e ▸ h1)
        · rcases h2 with h2 | ⟨h2e, h2r⟩
          · exact Or.inl (h1e ▸ h2)
          · exact Or.inr ⟨h1e.trans h2e, ih ys zs h1r h2r⟩

instance : IsTotal (Nat × String) markerRel := by
  constructor
  intro a b
  unfold markerRel markerLe
  rcases lt_trichotomy a.1 b.1 with h | h | h
  · exact Or.inl (by simp [h])
  · rcases charListLe_total a.2.data b.2.data with h2 | h2
    · exact Or.inl (by simp [h, h2])
    · exact Or.inr (by simp [h, h2])
  · exact Or.inr (by simp [h])

instance : IsTrans (Nat × String) markerRel := by
  constructor
  intro a b c h1 h2
  unfold markerRel markerLe at h1 h2 ⊢
  simp only [Bool.or_eq_true, Bool.and_eq_true, decide_eq_true_eq] at h1 h2 ⊢
  rcases h1 with h1 | ⟨h1e, h1r⟩
  · rcases h2 with h2 | ⟨h2e, h2r⟩
    · exact Or.inl (by omega)
    · exact Or.inl (by omega)
  · rcases h2 with h2 | ⟨h2e, h2r⟩
    · exact Or.inl (by omega)
    · exact Or.inr ⟨by omega, charListLe_trans _ _ _ h1r h2r⟩

theorem markerRel_of_lt_line (a b : Nat × String) (h : a.1 < b.1) :
    markerRel a b := by
  unfold markerRel markerLe
  simp [h]

theorem line_le_of_markerRel (a b : Nat × String) (h : markerRel a b) :
    a.1 ≤ b.1 := by
  unfold markerRel markerLe at h
  simp only [Bool.or_eq_true, Bool.and_eq_true, decide_eq_true_eq] at h
  rcases h with h | ⟨h, _⟩ <;> omega

theorem mem_enumFromL {α : Type} (l : List α) (n : Nat) (p : Nat × α) :
    p ∈ enumFromL n l ↔ ∃ i, p.1 = n + i ∧ l.get? i = some p.2 := by
  induction l generalizing n with
  | nil =>
    simp only [enumFromL, List.not_mem_nil, false_iff]
    rintro ⟨i, _, hg⟩
    simp at hg
  | cons a l ih =>
    simp only [enumFromL, List.mem_cons, ih]
    constructor
    · rintro (h | ⟨i, hi, hg⟩)
      · exact ⟨0, by rw [h]; rfl, by rw [h]; rfl⟩
      · exact ⟨i + 1, by omega, by simpa using hg⟩
    · rintro ⟨i, hi, hg⟩
      cases i with
      | zero =>
        simp only [List.get?_cons_zero, Option.some.injEq] at hg
        left
        have : p.1 = n := by omega
        calc p = (p.1, p.2) := rfl
          _ = (n, a) := by rw [this, hg]
      | succ i =>
        right
        exact ⟨i, by omega, by simpa using hg⟩

theorem mem_markersOf (lines : List String) (m : Nat × String) :
    m ∈ markersOf lines ↔
      m.2 ∈ SECTION_ORDER ∧
      ∃ ln, lines.get? m.1 = some ln ∧ matchesHeading m.2 ln = true := by
  unfold markersOf
  rw [List.mem_flatMap]
  constructor
  · rintro ⟨p, hp, hm⟩
    obtain ⟨nm, hnm, hmk⟩ := List.mem_map.mp hm
    obtain ⟨hnmSO, hnmMatch⟩ := List.mem_filter.mp hnm
    obtain ⟨i, hi, hg⟩ := (mem_enumFromL _ 0 p).mp hp
    refine ⟨by rw [← hmk]; exact hnmSO, p.2, ?_, ?_⟩
    · rw [← hmk]
      simpa [show p.1 = i by omega] using hg
    · rw [← hmk]
      simpa using hnmMatch
  · rintro ⟨hSO, ln, hg, hmatch⟩
    refine ⟨(m.1, ln), ?_, ?_⟩
    · rw [mem_enumFromL]
      exact ⟨m.1, by omega, hg⟩
    · rw [List.mem_map]
      exact ⟨m.2, List.mem_filter.mpr ⟨hSO, by simpa using hmatch⟩, rfl⟩

theorem enumFromL_fst_ge {α : Type} (l : List α) (n : Nat) (p : Nat × α)
    (h : p ∈ enumFromL n l) : n ≤ p.1 := by
  obtain ⟨i, hi, _⟩ := (mem_enumFromL l n p).mp h
  omega

theorem enumFromL_pairwise_lt {α : Type} (l : List α) (n : Nat) :
    List.Pairwise (fun p q => p.1 < q.1) (enumFromL n l) := by
  induction l generalizing n with
  | nil => exact List.Pairwise.nil
  | cons a l ih =>
    refine List.Pairwise.cons ?_ (ih (n+1))
    intro q hq
    have := enumFromL_fst_ge l (n+1) q hq
    omega

theorem markersOf_nodup (lines : List String) : (markersOf lines).Nodup := by
  unfold markersOf
  rw [List.nodup_flatMap]
  constructor
  · intro p _
    refine List.Nodup.map ?_ (List.Nodup.filter _ (by decide : SECTION_ORDER.Nodup))
    intro x y hxy
    simpa using hxy
  · refine (enumFromL_pairwise_lt lines 0).imp ?_
    intro p q hpq
    intro x hxp hxq
    obtain ⟨nm1, _, hx1⟩ := List.mem_map.mp hxp
    obtain ⟨nm2, _, hx2⟩ := List.mem_map.mp hxq
    have h1 : x.1 = p.1 := by rw [← hx1]
    have h2 : x.1 = q.1 := by rw [← hx2]
    omega

theorem zip_consec_cons (a : Nat × String) (l : List (Nat × String))
    (sent : Nat × String) :
    (a :: l).zip (((a :: l).drop 1) ++ [sent]) =
      (a, l.headD sent) :: l.zip ((l.drop 1) ++ [sent]) := by
  cases l with
  | nil => rfl
  | cons b l2 => rfl

theorem consec_decomp (A : List (Nat × String)) (x : Nat × String)
    (B : List (Nat × String)) (sent : Nat × String) :
    ∃ A2, (A ++ x :: B).zip (((A ++ x :: B).drop 1) ++ [sent]) =
        A2 ++ (x, B.headD sent) :: B.zip ((B.drop 1) ++ [sent]) ∧
      ∀ pr ∈ A2, pr.1 ∈ A := by
  induction A with
  | nil =>
    refine ⟨[], ?_, by simp⟩
    simpa using zip_consec_cons x B sent
  | cons a A ih =>
    obtain ⟨A2, hA2, hmem⟩ := ih
    refine ⟨(a, (A ++ x :: B).headD sent) :: A2, ?_, ?_⟩
    · rw [List.cons_append, zip_consec_cons a (A ++ x :: B) sent, hA2]
      rfl
    · intro pr hpr
      rcases List.mem_cons.mp hpr with h | h
      · rw [h]; simp
      · exact List.mem_cons_of_mem _ (hmem pr h)

theorem foldl_upd_no_name (v : ((Nat × String) × (Nat × String)) → String)
    (prs : List ((Nat × String) × (Nat × String))) (d : List (String × String))
    (name : String) (h : ∀ pr ∈ prs, ¬ pr.1.2 = name) :
    lookupOpt (prs.foldl (fun secs pr => pyUpd secs pr.1.2 (v pr)) d) name =
      lookupOpt d name := by
  induction prs generalizing d with
  | nil => rfl
  | cons pr prs ih =>
    rw [List.foldl_cons, ih _ (fun q hq => h q (by simp [hq]))]
    exact lookupOpt_pyUpd_ne _ _ _ _ (fun hh => h pr (by simp) hh.symm)

theorem foldl_upd_last (v : ((Nat × String) × (Nat × String)) → String)
    (A2 : List ((Nat × String) × (Nat × String)))
    (pr0 : (Nat × String) × (Nat × String))
    (B2 : List ((Nat × String) × (Nat × String))) (d : List (String × String))
    (name : String) (h0 : pr0.1.2 = name)
    (hB : ∀ pr ∈ B2, ¬ pr.1.2 = name) :
    lookupOpt ((A2 ++ pr0 :: B2).foldl
        (fun secs pr => pyUpd secs pr.1.2 (v pr)) d) name = some (v pr0) := by
  rw [List.foldl_append, List.foldl_cons, foldl_upd_no_name v B2 _ name hB, h0]
  exact lookupOpt_pyUpd_self _ _ _

theorem headD_filter_range (P : Nat → Bool) (n x d : Nat)
    (hx : x ∈ (List.range n).filter P)
    (hmin : ∀ y ∈ (List.range n).filter P, x ≤ y) :
    ((List.range n).filter P).headD d = x := by
  have hsorted : List.Pairwise (· < ·) ((List.range n).filter P) :=
    List.Pairwise.filter _ (List.sorted_lt_range n)
  cases hf : (List.range n).filter P with
  | nil => rw [hf] at hx; exact absurd hx (by simp)
  | cons y ys =>
    rw [hf] at hx hsorted hmin
    have hy := hmin y (by simp)
    rcases List.mem_cons.mp hx with h | h
    · rw [h]; rfl
    · have := (List.pairwise_cons.mp hsorted).1 x h
      omega

theorem lt_length_of_get?_some {α : Type} (l : List α) (n : Nat) (a : α)
    (h : l.get? n = some a) : n < l.length := by
  by_contra hge
  rw [List.get?_eq_none.mpr (by omega)] at h
  exact absurd h (by simp)

theorem getD_of_get? {α : Type} (l : List α) (n : Nat) (a d : α)
    (h : l.get? n = some a) : l.getD n d = a := by
  rw [List.getD_eq_get?, h]
  rfl

theorem matchesHeading_mem (nm ln : String) (h : matchesHeading nm ln = true) :
    nm ∈ SECTION_ORDER := by
  unfold matchesHeading at h
  split_ifs at h with h1 h2 h3 h4 h5 h6 h7 h8 h9 h10 h11
  · rw [h1]; decide
  · rw [h2]; decide
  · rw [h3]; decide
  · rw [h4]; decide
  · rw [h5]; decide
  · rw [h6]; decide
  · rw [h7]; decide
  · rw [h8]; decide
  · rw [h9]; decide
  · rw [h10]; decide
  · rw [h11]; decide

/-- Claim C5: when the same section's heading matches at two distinct
line indices, the section's entry is the span owned by the later
occurrence — the text strictly between the later heading line and the
next heading line (or the end of the document) — the earlier assignment
being silently overwritten (last-match-wins).  The hypotheses state that
`name`'s pattern matches lines `i < j`, that it matches no line after
`j`, and that line `j` matches no other section's pattern. -/
theorem claim_C5 (text : String) (name lni lnj : String) (i j : Nat)
    (hij : i < j)
    (hi : (strippedLines text).get? i = some lni)
    (hmi : matchesHeading name lni = true)
    (hj : (strippedLines text).get? j = some lnj)
    (hmj : matchesHeading name lnj = true)
    (hlast : ((strippedLines text).drop (j+1)).all
      (fun ln => !matchesHeading name ln) = true)
    (honly : SECTION_ORDER.all
      (fun nm => nm == name || !matchesHeading nm lnj) = true) :
    lookupStr (find_sections text) name =
      stripStr (joinNL (((strippedLines text).drop (j+1)).take
        (nextHeadingLine (strippedLines text) j - (j+1)))) := by
  have hSO : name ∈ SECTION_ORDER := matchesHeading_mem name lnj hmj
  have hmem : (j, name) ∈ markersOf (strippedLines text) :=
    (mem_markersOf _ _).mpr ⟨hSO, lnj, hj, hmj⟩
  have hperm := List.perm_insertionSort markerRel (markersOf (strippedLines text))
  have hmem2 : (j, name) ∈ sortMarkers (markersOf (strippedLines text)) :=
    hperm.mem_iff.mpr hmem
  obtain ⟨A, B, hAB⟩ := List.append_of_mem hmem2
  have hsorted : List.Pairwise markerRel (A ++ (j, name) :: B) := by
    rw [← hAB]
    exact List.sorted_insertionSort markerRel _
  have hnodup : (A ++ (j, name) :: B).Nodup := by
    rw [← hAB]
    exact (hperm.nodup_iff).mpr (markersOf_nodup _)
  have hmsmem : ∀ b, b ∈ A ++ (j, name) :: B → b ∈ markersOf (strippedLines text) := by
    intro b hb
    rw [← hAB] at hb
    exact hperm.mem_iff.mp hb
  have hBrel : ∀ b ∈ B, markerRel (j, name) b :=
    (List.pairwise_cons.mp (List.pairwise_append.mp hsorted).2.1).1
  have hArel : ∀ a ∈ A, markerRel a (j, name) := by
    intro a ha
    exact (List.pairwise_append.mp hsorted).2.2 a ha (j, name) (by simp)
  have hAle : ∀ a ∈ A, a.1 ≤ j := fun a ha => line_le_of_markerRel _ _ (hArel a ha)
  have hnotinB : (j, name) ∉ B := by
    have hmid := List.nodup_middle.mp hnodup
    exact fun hin => (List.nodup_cons.mp hmid).1 (List.mem_append.mpr (Or.inr hin))
  have hBgt : ∀ b ∈ B, j < b.1 := by
    intro b hb
    have hle : j ≤ b.1 := line_le_of_markerRel _ _ (hBrel b hb)
    rcases Nat.lt_or_ge j b.1 with hlt | hge
    · exact hlt
    · exfalso
      have hbj : b.1 = j := by omega
      obtain ⟨hbSO, lnb, hbg, hbmatch⟩ := (mem_markersOf _ _).mp
        (hmsmem b (List.mem_append.mpr (Or.inr (List.mem_cons_of_mem _ hb))))
      rw [hbj, hj] at hbg
      have hlnb : lnb = lnj := by
        simpa using hbg.symm
      have honly2 := List.all_eq_true.mp honly b.2 hbSO
      simp only [Bool.or_eq_true, beq_iff_eq, Bool.not_eq_true'] at honly2
      rcases honly2 with hbn | hbn
      · have hbeq : b = (j, name) := by
          calc b = (b.1, b.2) := rfl
            _ = (j, name) := by rw [hbj, hbn]
        exact hnotinB (hbeq ▸ hb)
      · rw [hlnb, hbn] at hbmatch
        exact absurd hbmatch (by simp)
  have hBname : ∀ b ∈ B, ¬ b.2 = name := by
    intro b hb hbn
    have hgt := hBgt b hb
    obtain ⟨_, lnb, hbg, hbmatch⟩ := (mem_markersOf _ _).mp
      (hmsmem b (List.mem_append.mpr (Or.inr (List.mem_cons_of_mem _ hb))))
    rw [hbn] at hbmatch
    have hdropg : ((strippedLines text).drop (j+1)).get? (b.1 - (j+1)) = some lnb := by
      rw [List.get?_drop]
      rw [show j + 1 + (b.1 - (j + 1)) = b.1 by omega]
      exact hbg
    have hmemd : lnb ∈ (strippedLines text).drop (j+1) := List.get?_mem hdropg
    have := List.all_eq_true.mp hlast lnb hmemd
    rw [hbmatch] at this
    exact absurd this (by simp)
  have hnext : (B.headD ((strippedLines text).length, "")).1 =
      nextHeadingLine (strippedLines text) j := by
    cases hB : B with
    | nil =>
      have hfil : (List.range (strippedLines text).length).filter
          (fun k => decide (j < k) && anyHeading ((strippedLines text).getD k "")) = [] := by
        rw [List.filter_eq_nil_iff]
        intro k hk hPk
        simp only [Bool.and_eq_true, decide_eq_true_eq] at hPk
        obtain ⟨hjk, hah⟩ := hPk
        have hklen : k < (strippedLines text).length := List.mem_range.mp hk
        obtain ⟨lnk, hlnk⟩ : ∃ lnk, (strippedLines text).get? k = some lnk := by
          cases hg : (strippedLines text).get? k with
          | none => rw [List.get?_eq_none] at hg; omega
          | some x => exact ⟨x, rfl⟩
        have hgetD : (strippedLines text).getD k "" = lnk := getD_of_get? _ _ _ _ hlnk
        rw [hgetD] at hah
        unfold anyHeading at hah
        obtain ⟨nm, hnmSO, hnmm⟩ := List.any_eq_true.mp hah
        have hkm : (k, nm) ∈ markersOf (strippedLines text) :=
          (mem_markersOf _ _).mpr ⟨hnmSO, lnk, hlnk, by simpa using hnmm⟩
        have hkms0 : (k, nm) ∈ sortMarkers (markersOf (strippedLines text)) :=
          hperm.mem_iff.mpr hkm
        have hkms : (k, nm) ∈ A ++ (j, name) :: B := hAB ▸ hkms0
        rw [hB] at hkms
        rcases List.mem_append.mp hkms with hin | hin
        · have := hAle _ hin
          simp only at this
          omega
        · rcases List.mem_cons.mp hin with hin | hin
          · have : k = j := by
              have := congrArg Prod.fst hin
              simpa using this
            omega
          · exact absurd hin (by simp)
      unfold nextHeadingLine
      rw [hfil]
      rfl
    | cons b0 B2 =>
      have hb0B : b0 ∈ B := by rw [hB]; simp
      have hb0gt := hBgt b0 hb0B
      obtain ⟨hb0SO, lnb0, hb0g, hb0match⟩ := (mem_markersOf _ _).mp
        (hmsmem b0 (List.mem_append.mpr (Or.inr (List.mem_cons_of_mem _ hb0B))))
      have hb0len : b0.1 < (strippedLines text).length :=
        lt_length_of_get?_some _ _ _ hb0g
      have hmemfil : b0.1 ∈ (List.range (strippedLines text).length).filter
          (fun k => decide (j < k) && anyHeading ((strippedLines text).getD k "")) := by
        rw [List.mem_filter]
        refine ⟨List.mem_range.mpr hb0len, ?_⟩
        rw [Bool.and_eq_true]
        refine ⟨by simpa using hb0gt, ?_⟩
        rw [getD_of_get? _ _ _ _ hb0g]
        unfold anyHeading
        rw [List.any_eq_true]
        exact ⟨b0.2, hb0SO, by simpa using hb0match⟩
      have hminfil : ∀ y ∈ (List.range (strippedLines text).length).filter
          (fun k => decide (j < k) && anyHeading ((strippedLines text).getD k "")),
          b0.1 ≤ y := by
        intro y hy
        obtain ⟨hyr, hyP⟩ := List.mem_filter.mp hy
        simp only [Bool.and_eq_true, decide_eq_true_eq] at hyP
        obtain ⟨hjy, hyah⟩ := hyP
        have hylen : y < (strippedLines text).length := List.mem_range.mp hyr
        obtain ⟨lny, hlny⟩ : ∃ lny, (strippedLines text).get? y = some lny := by
          cases hg : (strippedLines text).get? y with
          | none => rw [List.get?_eq_none] at hg; omega
          | some x => exact ⟨x, rfl⟩
        rw [getD_of_get? _ _ _ _ hlny] at hyah
        unfold anyHeading at hyah
        obtain ⟨nm, hnmSO, hnmm⟩ := List.any_eq_true.mp hyah
        have hym0 : (y, nm) ∈ sortMarkers (markersOf (strippedLines text)) :=
          hperm.mem_iff.mpr
            ((mem_markersOf _ _).mpr ⟨hnmSO, lny, hlny, by simpa using hnmm⟩)
        have hym : (y, nm) ∈ A ++ (j, name) :: B := hAB ▸ hym0
        rcases List.mem_append.mp hym with hin | hin
        · have := hAle _ hin
          simp only at this
          omega
        · rcases List.mem_cons.mp hin with hin | hin
          · have : y = j := by
              have := congrArg Prod.fst hin
              simpa using this
            omega
          · rw [hB] at hin
            rcases List.mem_cons.mp hin with hin | hin
            · have : y = b0.1 := by
                have := congrArg Prod.fst hin
                simpa using this
              omega
            · have hB2rel : markerRel b0 (y, nm) := by
                have hpB : List.Pairwise markerRel B :=
                  (List.pairwise_cons.mp (List.pairwise_append.mp hsorted).2.1).2
                rw [hB] at hpB
                exact (List.pairwise_cons.mp hpB).1 (y, nm) hin
              have := line_le_of_markerRel _ _ hB2rel
              simp only at this
              omega
      have := headD_filter_range _ _ _ (strippedLines text).length hmemfil hminfil
      unfold nextHeadingLine
      rw [this]
      rfl
  obtain ⟨A2, hzip, _⟩ := consec_decomp A (j, name) B ((strippedLines text).length, "")
  have hfold : lookupOpt (find_sections text) name =
      some (stripStr (joinNL (((strippedLines text).drop (j+1)).take
        ((B.headD ((strippedLines text).length, "")).1 - (j+1))))) := by
    simp only [find_sections]
    rw [hAB, hzip]
    exact foldl_upd_last
      (fun pr => stripStr (joinNL (((strippedLines text).drop (pr.1.1 + 1)).take
        (pr.2.1 - (pr.1.1 + 1)))))
      A2 ((j, name), B.headD ((strippedLines text).length, "")) _ _ name rfl
      (fun pr hpr => hBname pr.1 (List.of_mem_zip hpr).1)
  unfold lookupStr lookupD
  rw [hfold, hnext]
  rfl

/-- Witness for C5: a document whose Projects heading appears at lines 0
and 2; the entry is the span of the later occurrence ("B"), not of the
earlier one ("A"). -/
theorem claim_C5_witness :
    lookupStr (find_sections "Projects\nA\nProjects\nB\nEducation\nC") "Projects" =
      stripStr (joinNL (((strippedLines "Projects\nA\nProjects\nB\nEducation\nC").drop (2+1)).take
        (nextHeadingLine (strippedLines "Projects\nA\nProjects\nB\nEducation\nC") 2 - (2+1)))) ∧
    stripStr (joinNL (((strippedLines "Projects\nA\nProjects\nB\nEducation\nC").drop (2+1)).take
        (nextHeadingLine (strippedLines "Projects\nA\nProjects\nB\nEducation\nC") 2 - (2+1)))) = "B" :=
  ⟨claim_C5 "Projects\nA\nProjects\nB\nEducation\nC" "Projects" "Projects" "Projects" 0 2
    (by decide) (by decide) (by decide) (by decide) (by decide) (by decide) (by decide),
   by decide⟩
